import Mathlib

/-! # cirbuf: a mirrored circular byte buffer (`cirbuf.h`)

Shallow embedding of `cirbuf.h` and the properties of its cursor arithmetic.

Conventions of the embedding.

* The C integer types are taken at their LP64 widths: `unsigned int` is 32 bits
  (`head`, `tail`, the `size` argument of `cirbuf_poll`), `unsigned long` and
  `size_t` are 64 bits (`cirbuf_t.size`), `int` is 32 bits, two's complement
  (the `size` argument of `cirbuf_offer` and the results of `cirbuf_size`,
  `cirbuf_usedspace`, `cirbuf_unusedspace`).  Unsigned values are `Nat`,
  signed values are `Int`; every conversion and every wrapping operation of
  the C code is an explicit reduction modulo `2 ^ 32` or `2 ^ 64`.
* `cirbuf_t.data` points at a window of `2 * size` bytes.  A pointer
  `cb->data + v` is represented by its offset `v` in that window, `NULL` by
  `none`.  The field `data` of the embedding holds the contents of the
  temporary file behind the window, indexed by file offset.
* `create_buffer_mirror` is embedded call by call over a model of the calls it
  makes (`mkstemp`, `unlink`, `ftruncate`, `mmap`): an address space that
  binds byte addresses to bytes of a file, and the answers of the kernel that
  the program cannot compute.  `exit(-1)` is `none`.
* An access outside the window, and a division by zero, have no defined
  result in C; the embedding returns `none` for them.
-/

namespace Cirbuf

/-- An `unsigned char`.  Bytes are only copied, never computed on. -/
abbrev Byte := Nat

/-- Conversion of an integer value to `unsigned int` (32 bits). -/
def toUInt (x : Int) : Nat := (x % 2 ^ 32).toNat

/-- Conversion of an integer value to `unsigned long` / `size_t` (64 bits). -/
def toULong (x : Int) : Nat := (x % 2 ^ 64).toNat

/-- Conversion of an integer value to `int` (32 bits, two's complement). -/
def toInt (x : Int) : Int := (x + 2 ^ 31) % 2 ^ 32 - 2 ^ 31

/-- The struct `cirbuf_t`.  `data` is the content of the backing file. -/
structure cirbuf_t where
  size : Nat
  head : Nat
  tail : Nat
  data : Nat → Byte

/-- The byte of the backing storage that the offset `v` of the window denotes:
`v` itself in the first half `[0, size)`, `v - size` in the second half
`[size, 2 * size)`, and nothing outside the window.  That the window built by
`create_buffer_mirror` has this shape is proved in the section on C13. -/
def window_offset (size v : Nat) : Option Nat :=
  if v < size then some v
  else if v < 2 * size then some (v - size)
  else none

/-- Read of the byte at window offset `v` (`cb->data[v]`). -/
def load (cb : cirbuf_t) (v : Nat) : Option Byte :=
  (window_offset cb.size v).map cb.data

/-- Write of the byte `b` at window offset `v` (`cb->data[v] = b`). -/
def store (cb : cirbuf_t) (v : Nat) (b : Byte) : Option cirbuf_t :=
  match window_offset cb.size v with
  | some k => some { cb with data := fun j => if j = k then b else cb.data j }
  | none => none

/-- `memcpy(cb->data + dst, src, n)`: the bytes `src[0 .. n)` are stored at
the window offsets `dst, dst + 1, ...` in increasing order. -/
def memcpy (cb : cirbuf_t) (dst : Nat) (src : Nat → Byte) : Nat → Option cirbuf_t
  | 0 => some cb
  | n + 1 => (memcpy cb dst src n).bind fun c => store c (dst + n) (src n)

/-! ### The calls made by `create_buffer_mirror` -/

/-- A protection bit of `mmap`.  `PROT_NONE` is the empty list of bits. -/
inductive Prot where
  | PROT_READ
  | PROT_WRITE
  deriving DecidableEq

/-- A flag of `mmap`. -/
inductive MapFlag where
  | MAP_FIXED
  | MAP_SHARED
  | MAP_PRIVATE
  | MAP_ANONYMOUS
  deriving DecidableEq

/-- What a byte address of the process is bound to: the protection of its
page, the byte of a file behind it (descriptor and file offset; `none` for
anonymous memory), and whether stores reach the file (`MAP_SHARED`). -/
structure Binding where
  prot : List Prot
  file : Option (Int × Nat)
  shared : Bool
  deriving DecidableEq

/-- The address space of the process: the binding of every byte address,
`none` where nothing is mapped. -/
abbrev Space := Nat → Option Binding

/-- The answers of the operating system that the program cannot compute: the
page size, the results of `mkstemp`, `unlink` and `ftruncate` (by length), the
address the kernel picks for a mapping of a given length that is not
`MAP_FIXED` (`none` when it finds no room), and whether it has the resources
for a `MAP_FIXED` mapping at a given address and length. -/
structure Kernel where
  page : Nat
  mkstemp : Int
  unlink : Int
  ftruncate : Nat → Int
  place : Nat → Option Nat
  grant : Nat → Nat → Bool

/-- The call `mmap(addr, len, prot, flags, fd, off)` in the address space
`space`; `none` is `MAP_FAILED`.  It fails for a zero length, for a file
offset that is not a multiple of the page size, and for a file mapping
without a valid descriptor.  With `MAP_FIXED` the mapping is placed at `addr`,
which has to be a multiple of the page size; without it the kernel picks the
place and `addr` is only a hint.  The place is a multiple of the page size,
not the null page, and the mapped range ends below `2 ^ 64`.  The mapping
covers whole pages and replaces what was mapped there; byte `i` of it is bound
to byte `off + i` of the file, or to anonymous memory. -/
def mmap (K : Kernel) (space : Space) (addr len : Nat) (prot : List Prot)
    (flags : List MapFlag) (fd : Int) (off : Nat) : Option (Nat × Space) :=
  if len = 0 ∨ K.page = 0 ∨ off % K.page ≠ 0 then none
  else if MapFlag.MAP_ANONYMOUS ∉ flags ∧ fd < 0 then none
  else
    let target : Option Nat :=
      if MapFlag.MAP_FIXED ∈ flags then
        if addr % K.page = 0 ∧ K.grant addr len = true then some addr else none
      else K.place len
    match target with
    | none => none
    | some a =>
      if a = 0 ∨ a % K.page ≠ 0 ∨ 2 ^ 64 ≤ a + len then none
      else
        let span := (len + K.page - 1) / K.page * K.page
        let bound : Nat → Binding := fun i =>
          { prot := prot,
            file := if MapFlag.MAP_ANONYMOUS ∈ flags then none else some (fd, off + i),
            shared := decide (MapFlag.MAP_SHARED ∈ flags) }
        some (a, fun x => if a ≤ x ∧ x < a + span then some (bound (x - a)) else space x)

/-- A load from the address `a`: it needs read access and a byte of the file
`fd` below the file length `len`; `file` is the content of that file. -/
def read_byte (space : Space) (fd : Int) (len : Nat) (file : Nat → Byte) (a : Nat) :
    Option Byte :=
  match space a with
  | none => none
  | some b =>
    if Prot.PROT_READ ∈ b.prot then
      match b.file with
      | some (d, off) => if d = fd ∧ off < len then some (file off) else none
      | none => none
    else none

/-- A store of `v` to the address `a`: it needs write access and a shared
byte of the file `fd` below the file length `len`; the result is the new
content of the file. -/
def write_byte (space : Space) (fd : Int) (len : Nat) (file : Nat → Byte) (a : Nat)
    (v : Byte) : Option (Nat → Byte) :=
  match space a with
  | none => none
  | some b =>
    if Prot.PROT_WRITE ∈ b.prot ∧ b.shared = true then
      match b.file with
      | some (d, off) =>
        if d = fd ∧ off < len then some (fun j => if j = off then v else file j) else none
      | none => none
    else none

/-- What `create_buffer_mirror` leaves behind when it returns: the pointer
`cb->data`, the address space, and the descriptor of the backing file (closed
by then; the mappings keep the file). -/
structure Mirror where
  data : Nat
  space : Space
  fd : Int

/-- `create_buffer_mirror` for `cb->size = size`, call by call.  Every failure
path ends in `exit(-1)`, which is `none`.  `cb->size << 1` is computed in 64
bits, and so is the pointer `cb->data + cb->size`. -/
def create_buffer_mirror (K : Kernel) (space : Space) (size : Nat) : Option Mirror :=
  let fd := K.mkstemp
  if fd = -1 then none
  else if K.unlink ≠ 0 then none
  else if K.ftruncate size ≠ 0 then none
  else
    match mmap K space 0 ((size <<< 1) % 2 ^ 64) []
        [MapFlag.MAP_ANONYMOUS, MapFlag.MAP_PRIVATE] (-1) 0 with
    | none => none
    | some (data, s1) =>
      match mmap K s1 data size [Prot.PROT_READ, Prot.PROT_WRITE]
          [MapFlag.MAP_FIXED, MapFlag.MAP_SHARED] fd 0 with
      | none => none
      | some (a1, s2) =>
        if a1 ≠ data then none
        else
          match mmap K s2 ((data + size) % 2 ^ 64) size [Prot.PROT_READ, Prot.PROT_WRITE]
              [MapFlag.MAP_FIXED, MapFlag.MAP_SHARED] fd 0 with
          | none => none
          | some (a2, s3) =>
            if a2 ≠ (data + size) % 2 ^ 64 then none
            else some { data := data, space := s3, fd := fd }

/-- `cirbuf_new`: the struct left behind when `create_buffer_mirror` has
returned (on any failure it calls `exit(-1)` instead).  The file has just been
extended by `ftruncate`, so it reads as zero bytes. -/
def cirbuf_new (size : Nat) : cirbuf_t :=
  { size := size % 2 ^ 64, head := 0, tail := 0, data := fun _ => 0 }

/-- `cirbuf_is_empty`. -/
def cirbuf_is_empty (cb : cirbuf_t) : Bool :=
  decide (cb.head = cb.tail)

/-- `cirbuf_size`: the `unsigned long` field returned as `int`. -/
def cirbuf_size (cb : cirbuf_t) : Int :=
  toInt cb.size

/-- `cirbuf_usedspace`.  The first difference is computed in `unsigned int`,
the second in `unsigned long`; both are returned as `int`. -/
def cirbuf_usedspace (cb : cirbuf_t) : Int :=
  if cb.head ≤ cb.tail then
    toInt (toUInt ((cb.tail : Int) - cb.head))
  else
    toInt (toULong ((cb.size : Int) - toUInt ((cb.head : Int) - cb.tail)))

/-- `cirbuf_unusedspace`: the `int` result of `cirbuf_usedspace` is converted
to `unsigned long`, subtracted from `size`, and returned as `int`. -/
def cirbuf_unusedspace (cb : cirbuf_t) : Int :=
  toInt (toULong ((cb.size : Int) - toULong (cirbuf_usedspace cb)))

/-- `cirbuf_offer`.  The result is the new struct and the returned `int`. -/
def cirbuf_offer (cb : cirbuf_t) (data : Nat → Byte) (size : Int) :
    Option (cirbuf_t × Int) :=
  if cirbuf_unusedspace cb ≤ size then
    some (cb, 0)
  else
    match memcpy cb cb.tail data (toULong size) with
    | none => none
    | some c =>
      let t := toUInt ((c.tail : Int) + size)
      if c.size ≤ t then
        if c.size = 0 then none
        else some ({ c with tail := toUInt ((t % c.size : Nat) : Int) }, size)
      else
        some ({ c with tail := t }, size)

/-- `cirbuf_peek`.  The struct is passed by `const` pointer and nothing is
assigned; it is returned next to the reference so that this can be stated. -/
def cirbuf_peek (cb : cirbuf_t) : cirbuf_t × Option Nat :=
  if cirbuf_is_empty cb then (cb, none) else (cb, some cb.head)

/-- `cirbuf_poll`.  `size` is converted to `unsigned int` on entry. -/
def cirbuf_poll (cb : cirbuf_t) (size : Nat) : cirbuf_t × Option Nat :=
  if cirbuf_is_empty cb then
    (cb, none)
  else
    let e := cb.head
    let h := toUInt ((cb.head : Int) + toUInt size)
    if cb.size ≤ h then
      ({ cb with head := toUInt (toULong ((h : Int) - cb.size)) }, some e)
    else
      ({ cb with head := h }, some e)

/-- A run of `cirbuf_poll` calls, one per length of the list, with the
references they return. -/
def poll_all (cb : cirbuf_t) : List Nat → cirbuf_t × List (Option Nat)
  | [] => (cb, [])
  | n :: ns =>
    let r := cirbuf_poll cb n
    let rs := poll_all r.1 ns
    (rs.1, r.2 :: rs.2)

/-- A call of one of the three operations, with its arguments. -/
inductive Call where
  | offer (data : Nat → Byte) (size : Int)
  | peek
  | poll (size : Nat)

/-- The struct after a call (`none` when the call has no defined result). -/
def call (cb : cirbuf_t) : Call → Option cirbuf_t
  | Call.offer data size => (cirbuf_offer cb data size).map Prod.fst
  | Call.peek => some (cirbuf_peek cb).1
  | Call.poll size => some (cirbuf_poll cb size).1

/-- The struct after a sequence of calls, made one after the other. -/
def run (cb : cirbuf_t) : List Call → Option cirbuf_t
  | [] => some cb
  | c :: cs => (call cb c).bind fun cb1 => run cb1 cs

/-! ### The same computations in unbounded integers

The bodies of `cirbuf_size`, `cirbuf_usedspace`, `cirbuf_unusedspace` and
`cirbuf_offer` once more, with every operation carried out in `Int` and no
conversion between C types. -/

/-- The body of `cirbuf_size` in unbounded integers. -/
def size_unbounded (cb : cirbuf_t) : Int :=
  cb.size

/-- The body of `cirbuf_usedspace` in unbounded integers. -/
def usedspace_unbounded (cb : cirbuf_t) : Int :=
  if cb.head ≤ cb.tail then
    (cb.tail : Int) - cb.head
  else
    (cb.size : Int) - ((cb.head : Int) - cb.tail)

/-- The body of `cirbuf_unusedspace` in unbounded integers. -/
def unusedspace_unbounded (cb : cirbuf_t) : Int :=
  (cb.size : Int) - usedspace_unbounded cb

/-- The body of `cirbuf_offer` in unbounded integers. -/
def offer_unbounded (cb : cirbuf_t) (data : Nat → Byte) (size : Int) :
    Option (cirbuf_t × Int) :=
  if unusedspace_unbounded cb ≤ size then
    some (cb, 0)
  else
    match memcpy cb cb.tail data size.toNat with
    | none => none
    | some c =>
      let t : Int := (c.tail : Int) + size
      if (c.size : Int) ≤ t then
        if c.size = 0 then none
        else some ({ c with tail := (t % (c.size : Int)).toNat }, size)
      else
        some ({ c with tail := t.toNat }, size)

/-! ### The bytes held, as a queue -/

/-- The bytes held by the buffer, oldest first: the `cirbuf_usedspace` bytes
at the window offsets `head`, `head + 1`, ..., where offset `k` denotes the
byte `k mod size` of the backing storage. -/
def contents (cb : cirbuf_t) : List Byte :=
  (List.range (cirbuf_usedspace cb).toNat).map fun i => cb.data ((cb.head + i) % cb.size)

/-- The `n` bytes read through the window from the reference `e`
(`e[0]`, ..., `e[n - 1]`). -/
def read_from (cb : cirbuf_t) (e n : Nat) : List (Option Byte) :=
  (List.range n).map fun i => load cb (e + i)

/-- The first `n` bytes of the caller's array `data`, as a list. -/
def bytes_of (data : Nat → Byte) (n : Nat) : List Byte :=
  (List.range n).map data

/-- A request to the queue: append the bytes `x`, or release `n` bytes. -/
inductive Request where
  | offer (x : List Byte)
  | poll (n : Nat)

/-- A queue of bytes that holds at most `C - 1` bytes: an offer that would
bring it to `C` bytes or more is rejected and changes nothing. -/
def queue_call (C : Nat) (q : List Byte) : Request → List Byte
  | Request.offer x => if q.length + x.length < C then q ++ x else q
  | Request.poll n => q.drop n

/-- The queue after a sequence of requests. -/
def queue_run (C : Nat) (q : List Byte) : List Request → List Byte
  | [] => q
  | r :: rs => queue_run C (queue_call C q r) rs

/-- Every poll of the sequence releases at most the bytes held at its turn. -/
def polls_in_bounds (C : Nat) (q : List Byte) : List Request → Bool
  | [] => true
  | Request.offer x :: rs => polls_in_bounds C (queue_call C q (Request.offer x)) rs
  | Request.poll n :: rs =>
    decide (n ≤ q.length) && polls_in_bounds C (queue_call C q (Request.poll n)) rs

/-- The request served by the buffer: `cirbuf_offer` of the bytes of `x` with
their count, or `cirbuf_poll`. -/
def buffer_call (cb : cirbuf_t) : Request → Option cirbuf_t
  | Request.offer x => (cirbuf_offer cb (fun i => x.getD i 0) x.length).map Prod.fst
  | Request.poll n => some (cirbuf_poll cb n).1

/-- The buffer after a sequence of requests. -/
def buffer_run (cb : cirbuf_t) : List Request → Option cirbuf_t
  | [] => some cb
  | r :: rs => (buffer_call cb r).bind fun c => buffer_run c rs

/-! ## Arithmetic of the conversions -/

theorem toUInt_eq (x : Int) (h0 : 0 ≤ x) (h1 : x < 2 ^ 32) : (toUInt x : Int) = x := by
  unfold toUInt
  omega

theorem toUInt_lt (x : Int) : toUInt x < 2 ^ 32 := by
  unfold toUInt
  omega

theorem toULong_eq (x : Int) (h0 : 0 ≤ x) (h1 : x < 2 ^ 64) : (toULong x : Int) = x := by
  unfold toULong
  omega

theorem toInt_eq (x : Int) (h0 : -2 ^ 31 ≤ x) (h1 : x < 2 ^ 31) : toInt x = x := by
  unfold toInt
  omega

theorem mod_once (a c : Nat) (h1 : c ≤ a) (h2 : a < 2 * c) : a % c = a - c := by
  rw [Nat.mod_eq_sub_mod h1, Nat.mod_eq_of_lt (by omega)]

theorem wrap_once (a c : Nat) (h : a < 2 * c) :
    (if c ≤ a then a - c else a) = a % c := by
  by_cases hw : c ≤ a
  · rw [if_pos hw, mod_once a c hw h]
  · rw [if_neg hw, Nat.mod_eq_of_lt (by omega)]

/-! ## The copy into the window -/

theorem store_fields (cb c : cirbuf_t) (v : Nat) (b : Byte) (h : store cb v b = some c) :
    c.size = cb.size ∧ c.head = cb.head ∧ c.tail = cb.tail := by
  unfold store at h
  split at h
  · cases h; exact ⟨rfl, rfl, rfl⟩
  · cases h

theorem memcpy_fields (cb : cirbuf_t) (dst : Nat) (src : Nat → Byte) (n : Nat) :
    ∀ c, memcpy cb dst src n = some c →
      c.size = cb.size ∧ c.head = cb.head ∧ c.tail = cb.tail := by
  induction n with
  | zero => intro c h; cases h; exact ⟨rfl, rfl, rfl⟩
  | succ n ih =>
    intro c h
    simp only [memcpy] at h
    cases hm : memcpy cb dst src n with
    | none => rw [hm] at h; cases h
    | some c1 =>
      rw [hm] at h
      obtain ⟨a1, a2, a3⟩ := ih c1 hm
      obtain ⟨b1, b2, b3⟩ := store_fields c1 c _ _ h
      exact ⟨b1.trans a1, b2.trans a2, b3.trans a3⟩

theorem memcpy_ok (cb : cirbuf_t) (dst : Nat) (src : Nat → Byte) (n : Nat)
    (h : dst + n ≤ 2 * cb.size) : ∃ c, memcpy cb dst src n = some c := by
  induction n with
  | zero => exact ⟨cb, rfl⟩
  | succ n ih =>
    obtain ⟨c1, hc1⟩ := ih (by omega)
    have hs := (memcpy_fields cb dst src n c1 hc1).1
    simp only [memcpy, hc1, Option.some_bind, store, window_offset, hs]
    by_cases h1 : dst + n < cb.size
    · simp [h1]
    · have h2 : dst + n < 2 * cb.size := by omega
      simp [h1, h2]

theorem store_load_same (cb c : cirbuf_t) (v : Nat) (b : Byte)
    (h : store cb v b = some c) : load c v = some b := by
  unfold store at h
  split at h
  · next k hk =>
    cases h
    simp [load, hk]
  · cases h

theorem store_load_other (cb c : cirbuf_t) (v w : Nat) (b : Byte)
    (h : store cb v b = some c) (hw : w < v) (hd : v - w < cb.size) :
    load c w = load cb w := by
  unfold store at h
  split at h
  · next k hk =>
    cases h
    unfold window_offset at hk
    simp only [load, window_offset]
    split_ifs at hk ⊢
    all_goals first
      | omega
      | (simp only [Option.some.injEq] at hk
         simp only [Option.map_some', Option.some.injEq]
         rw [if_neg (by omega)])
  · cases h

/-- After a copy of at most `size` bytes, the window reads back the source:
the copied span does not run over itself through the mirror. -/
theorem memcpy_load (cb : cirbuf_t) (dst : Nat) (src : Nat → Byte) (n : Nat) :
    ∀ c, memcpy cb dst src n = some c → n ≤ cb.size →
      ∀ i, i < n → load c (dst + i) = some (src i) := by
  induction n with
  | zero => intro c _ _ i hi; omega
  | succ n ih =>
    intro c h hn i hi
    simp only [memcpy] at h
    cases hm : memcpy cb dst src n with
    | none => rw [hm] at h; cases h
    | some c1 =>
      rw [hm] at h
      simp only [Option.some_bind] at h
      have hs := (memcpy_fields cb dst src n c1 hm).1
      by_cases hin : i = n
      · subst hin
        exact store_load_same c1 c _ _ h
      · rw [store_load_other c1 c (dst + n) (dst + i) _ h (by omega) (by omega)]
        exact ih c1 hm (by omega) i (by omega)

/-! ## The queries on a state whose counts fit an `int` -/

theorem usedspace_val (cb : cirbuf_t) (hcap : cb.size ≤ 2 ^ 31)
    (hh : cb.head < cb.size) (ht : cb.tail < cb.size) :
    cirbuf_usedspace cb =
      if cb.head ≤ cb.tail then (cb.tail : Int) - cb.head
      else (cb.size : Int) - ((cb.head : Int) - cb.tail) := by
  unfold cirbuf_usedspace toInt toULong toUInt
  split_ifs <;> omega

theorem unusedspace_val (cb : cirbuf_t) (hcap : cb.size ≤ 2 ^ 31)
    (hh : cb.head < cb.size) (ht : cb.tail < cb.size) (hne : cb.head ≠ cb.tail) :
    cirbuf_unusedspace cb = (cb.size : Int) - cirbuf_usedspace cb := by
  unfold cirbuf_unusedspace
  rw [usedspace_val cb hcap hh ht]
  unfold toInt toULong
  split_ifs <;> omega

theorem usedspace_empty (cb : cirbuf_t) (he : cb.head = cb.tail) :
    cirbuf_usedspace cb = 0 := by
  unfold cirbuf_usedspace
  rw [if_pos (le_of_eq he), he, sub_self]
  rfl

theorem unusedspace_empty (cb : cirbuf_t) (he : cb.head = cb.tail) :
    cirbuf_unusedspace cb = toInt (toULong cb.size) := by
  unfold cirbuf_unusedspace
  rw [usedspace_empty cb he]
  rfl

theorem offer_reject (cb : cirbuf_t) (data : Nat → Byte) (n : Int)
    (h : cirbuf_unusedspace cb ≤ n) : cirbuf_offer cb data n = some (cb, 0) := by
  unfold cirbuf_offer
  rw [if_pos h]

/-- An offer that passes the space test, on a state with cursors in range and
a capacity of at most `2 ^ 31`: the copy stays inside the window and the tail
ends at `(tail + size) % cb.size`. -/
theorem offer_accept (cb : cirbuf_t) (data : Nat → Byte) (n : Int)
    (hcap : cb.size ≤ 2 ^ 31) (hh : cb.head < cb.size) (ht : cb.tail < cb.size)
    (h0 : 0 ≤ n) (hlt : n < cirbuf_unusedspace cb) :
    ∃ c0, memcpy cb cb.tail data n.toNat = some c0 ∧
      cirbuf_offer cb data n
        = some ({ c0 with tail := (cb.tail + n.toNat) % cb.size }, n) ∧
      cb.tail + n.toNat < 2 * cb.size ∧ n + cirbuf_usedspace cb < cb.size := by
  have hu := usedspace_val cb hcap hh ht
  have hlt2 : n + cirbuf_usedspace cb < cb.size := by
    unfold cirbuf_unusedspace at hlt
    rw [hu] at hlt ⊢
    unfold toInt toULong at hlt
    split_ifs at hlt ⊢ <;> omega
  have hwin : cb.tail + n.toNat < 2 * cb.size := by
    rw [hu] at hlt2
    split_ifs at hlt2 <;> omega
  obtain ⟨c0, hc0⟩ := memcpy_ok cb cb.tail data n.toNat (by omega)
  obtain ⟨f1, -, f3⟩ := memcpy_fields cb cb.tail data n.toNat c0 hc0
  refine ⟨c0, hc0, ?_, hwin, hlt2⟩
  have hsz : toULong n = n.toNat := by unfold toULong; omega
  have ht' : toUInt ((c0.tail : Int) + n) = cb.tail + n.toNat := by
    rw [f3]; unfold toUInt; omega
  unfold cirbuf_offer
  rw [if_neg (by omega), hsz, hc0]
  simp only [ht', f1]
  by_cases hw : cb.size ≤ cb.tail + n.toNat
  · have hm := mod_once _ _ hw hwin
    have hne : cb.size ≠ 0 := by omega
    have hcv : toUInt (((cb.tail + n.toNat) % cb.size : Nat) : Int)
        = (cb.tail + n.toNat) % cb.size := by
      unfold toUInt; omega
    rw [if_pos hw, if_neg hne, hcv]
  · rw [if_neg hw, Nat.mod_eq_of_lt (by omega)]

/-- An offer of `0 < n < size` bytes to an empty buffer of capacity below
`2 ^ 31` is accepted, leaves the buffer non-empty, and the window reads the
offered bytes back from the head. -/
theorem offer_on_empty (cb : cirbuf_t) (data : Nat → Byte) (n : Int)
    (hcap : cb.size < 2 ^ 31) (he : cb.head = cb.tail) (ht : cb.tail < cb.size)
    (hn : 0 < n) (hlt : n < cb.size) :
    ∃ c0, cirbuf_offer cb data n
        = some ({ c0 with tail := (cb.tail + n.toNat) % cb.size }, n) ∧
      c0.size = cb.size ∧ c0.head = cb.head ∧
      cb.head ≠ (cb.tail + n.toNat) % cb.size ∧
      cb.tail + n.toNat < 2 * cb.size ∧
      ∀ i, i < n.toNat → load c0 (cb.head + i) = some (data i) := by
  have hun : n < cirbuf_unusedspace cb := by
    rw [unusedspace_empty cb he]
    unfold toInt toULong
    omega
  obtain ⟨c0, hc0, hoff, hwin, -⟩ :=
    offer_accept cb data n (le_of_lt hcap) (he ▸ ht) ht (le_of_lt hn) hun
  obtain ⟨f1, f2, -⟩ := memcpy_fields cb cb.tail data n.toNat c0 hc0
  have hld := memcpy_load cb cb.tail data n.toNat c0 hc0 (by omega)
  refine ⟨c0, hoff, f1, f2, ?_, hwin, ?_⟩
  · by_cases hw : cb.size ≤ cb.tail + n.toNat
    · rw [mod_once _ _ hw hwin]; omega
    · rw [Nat.mod_eq_of_lt (by omega)]; omega
  · intro i hi
    rw [he]
    exact hld i hi

/-- A poll on an empty buffer returns `NULL` and assigns nothing. -/
theorem poll_of_empty (cb : cirbuf_t) (n : Nat) (he : cb.head = cb.tail) :
    cirbuf_poll cb n = (cb, none) := by
  unfold cirbuf_poll cirbuf_is_empty
  rw [if_pos (by simpa using he)]

theorem poll_all_of_empty (cb : cirbuf_t) (he : cb.head = cb.tail) (ns : List Nat) :
    poll_all cb ns = (cb, List.replicate ns.length none) := by
  induction ns with
  | nil => rfl
  | cons n ns ih =>
    simp only [poll_all, poll_of_empty cb n he, ih, List.length_cons, List.replicate_succ]

/-- A poll on a non-empty buffer whose 32-bit sum `head + n` does not wrap:
the head moves to `head + n`, less `size` once if that is `≥ size`. -/
theorem poll_nonempty (cb : cirbuf_t) (n : Nat) (hne : cb.head ≠ cb.tail)
    (hsum : cb.head + n < 2 ^ 32) :
    cirbuf_poll cb n
      = ({ cb with head := if cb.size ≤ cb.head + n then cb.head + n - cb.size
                           else cb.head + n }, some cb.head) := by
  have h1 : toUInt ((cb.head : Int) + toUInt (n : Int)) = cb.head + n := by
    unfold toUInt; omega
  unfold cirbuf_poll cirbuf_is_empty
  rw [if_neg (by simpa using hne)]
  simp only [h1]
  by_cases hw : cb.size ≤ cb.head + n
  · have h2 : toUInt (toULong (((cb.head + n : Nat) : Int) - cb.size))
        = cb.head + n - cb.size := by
      unfold toUInt toULong; omega
    rw [if_pos hw, if_pos hw, h2]
  · rw [if_neg hw, if_neg hw]

/-! ## C1: accepted offer -/

/-- C1 (amended).  On a state with `0 < size ≤ 2 ^ 31`, `head < size` and
`tail < size`, an offer of `n` bytes with `0 < n < cirbuf_unusedspace` returns
`n`, keeps `head` and `size`, sets `tail` to `(tail + n) mod size` (which is
below `size`), raises `cirbuf_usedspace` by exactly `n` and leaves the buffer
non-empty. -/
theorem offer_accepted (cb : cirbuf_t) (data : Nat → Byte) (n : Int)
    (hpos : 0 < cb.size) (hcap : cb.size ≤ 2 ^ 31)
    (hh : cb.head < cb.size) (ht : cb.tail < cb.size)
    (hn : 0 < n) (hlt : n < cirbuf_unusedspace cb) :
    ∃ c, cirbuf_offer cb data n = some (c, n) ∧
      c.head = cb.head ∧ c.size = cb.size ∧
      (c.tail : Int) = ((cb.tail : Int) + n) % (cb.size : Int) ∧ c.tail < c.size ∧
      cirbuf_usedspace c = cirbuf_usedspace cb + n ∧
      cirbuf_is_empty c = false := by
  obtain ⟨c0, hc0, hoff, hwin, hroom⟩ :=
    offer_accept cb data n hcap hh ht (le_of_lt hn) hlt
  obtain ⟨f1, f2, -⟩ := memcpy_fields cb cb.tail data n.toNat c0 hc0
  have hlt' : (cb.tail + n.toNat) % cb.size < cb.size := Nat.mod_lt _ hpos
  have hcases : (cb.tail + n.toNat < cb.size ∧
        (cb.tail + n.toNat) % cb.size = cb.tail + n.toNat) ∨
      (cb.size ≤ cb.tail + n.toNat ∧
        (cb.tail + n.toNat) % cb.size = cb.tail + n.toNat - cb.size) := by
    by_cases hw : cb.size ≤ cb.tail + n.toNat
    · exact Or.inr ⟨hw, mod_once _ _ hw hwin⟩
    · exact Or.inl ⟨by omega, Nat.mod_eq_of_lt (by omega)⟩
  have hu := usedspace_val cb hcap hh ht
  refine ⟨_, hoff, f2, f1, ?_, by simpa [f1] using hlt', ?_, ?_⟩
  · have e : ((cb.tail : Int) + n) = ((cb.tail + n.toNat : Nat) : Int) := by omega
    rw [e, ← Int.natCast_mod]
  · rw [usedspace_val _ (by simpa [f1] using hcap) (by simpa [f1, f2] using hh)
      (by simpa [f1] using hlt')]
    simp only [f1, f2]
    rw [hu] at hroom ⊢
    rcases hcases with ⟨h1, h2⟩ | ⟨h1, h2⟩ <;> rw [h2] <;> split_ifs at hroom ⊢ <;> omega
  · simp only [cirbuf_is_empty, f2, decide_eq_false_iff_not]
    rw [hu] at hroom
    rcases hcases with ⟨h1, h2⟩ | ⟨h1, h2⟩ <;> rw [h2] <;> split_ifs at hroom <;> omega

/-- Witness for `offer_accepted`: four bytes offered to a fresh buffer of
capacity 8. -/
theorem offer_accepted_witness :
    ∃ c, cirbuf_offer (cirbuf_new 8) (fun i => 97 + i) 4 = some (c, 4) ∧
      c.head = (cirbuf_new 8).head ∧ c.size = (cirbuf_new 8).size ∧
      (c.tail : Int) = (((cirbuf_new 8).tail : Int) + 4) % ((cirbuf_new 8).size : Int) ∧
      c.tail < c.size ∧
      cirbuf_usedspace c = cirbuf_usedspace (cirbuf_new 8) + 4 ∧
      cirbuf_is_empty c = false :=
  offer_accepted (cirbuf_new 8) (fun i => 97 + i) 4 (by decide) (by decide) (by decide)
    (by decide) (by decide) (by decide)

/-- C1 as stated fails for a capacity above `2 ^ 31`.  With
`size = 2 ^ 32 + 4096` and `head = tail = 2 ^ 32 - 1` (an empty buffer, for
which `cirbuf_unusedspace` returns `4096`), an offer of 2 bytes is accepted,
but the 32-bit `tail` wraps to `1` instead of `(tail + 2) mod size`, and
`cirbuf_usedspace` goes from `0` to `4098`. -/
theorem offer_accepted_fails_above_int_range :
    ¬ ∀ (cb : cirbuf_t) (data : Nat → Byte) (n : Int),
      0 < cb.size → cb.head < cb.size → cb.tail < cb.size →
      0 < n → n < cirbuf_unusedspace cb →
      ∃ c, cirbuf_offer cb data n = some (c, n) ∧
        c.head = cb.head ∧ c.size = cb.size ∧
        (c.tail : Int) = ((cb.tail : Int) + n) % (cb.size : Int) ∧ c.tail < c.size ∧
        cirbuf_usedspace c = cirbuf_usedspace cb + n ∧
        cirbuf_is_empty c = false := by
  intro h
  obtain ⟨c, hc, -, -, htail, -⟩ :=
    h ⟨4294971392, 4294967295, 4294967295, fun _ => 0⟩ (fun _ => 7) 2
      (by decide) (by decide) (by decide) (by decide) (by decide)
  have e : (cirbuf_offer ⟨4294971392, 4294967295, 4294967295, fun _ => 0⟩
      (fun _ => 7) 2).map (fun r => r.1.tail) = some 1 := by decide
  rw [hc] at e
  simp only [Option.map_some', Option.some.injEq] at e
  rw [e] at htail
  revert htail
  decide

/-! ## C2: rejected offer -/

/-- C2.  An offer of `n` bytes with `n ≥ cirbuf_unusedspace` returns `0` and
leaves the struct as it was: `head`, `tail`, `size` and the stored bytes, and
with them the result of every query.  In particular, on an empty buffer an
`int` length `n` that equals or exceeds the capacity is rejected. -/
theorem offer_rejected (cb : cirbuf_t) (data : Nat → Byte) (n : Int) :
    (cirbuf_unusedspace cb ≤ n → cirbuf_offer cb data n = some (cb, 0)) ∧
    (cb.head = cb.tail → n < 2 ^ 31 → (cb.size : Int) ≤ n →
      cirbuf_offer cb data n = some (cb, 0)) := by
  refine ⟨offer_reject cb data n, fun he hn hC => offer_reject cb data n ?_⟩
  rw [unusedspace_empty cb he]
  unfold toInt toULong
  omega

/-- Witness for `offer_rejected`: on a fresh buffer of capacity `65536`, an
offer of `1 << 16` bytes and an offer of `1 << 17` bytes are both rejected. -/
theorem offer_rejected_witness :
    cirbuf_offer (cirbuf_new 65536) (fun _ => 48) 65536 = some (cirbuf_new 65536, 0) ∧
    cirbuf_offer (cirbuf_new 65536) (fun _ => 48) 131072 = some (cirbuf_new 65536, 0) :=
  ⟨(offer_rejected (cirbuf_new 65536) (fun _ => 48) 65536).1 (by decide),
   (offer_rejected (cirbuf_new 65536) (fun _ => 48) 131072).2 rfl (by decide) (by decide)⟩

/-! ## C3: offer followed by poll -/

/-- C3 (amended).  On an empty buffer (`head = tail < size`) of capacity below
`2 ^ 31`, an offer of `n` bytes of `data` with `0 < n < size` followed by
`cirbuf_poll` of `n` gives a non-null reference, the old head; the `n` bytes
read from it through the window are the bytes of `data`; and the buffer is
empty again with `cirbuf_usedspace` equal to `0`. -/
theorem offer_poll_roundtrip (cb : cirbuf_t) (data : Nat → Byte) (n : Int)
    (hcap : cb.size < 2 ^ 31) (he : cb.head = cb.tail) (ht : cb.tail < cb.size)
    (hn : 0 < n) (hlt : n < cb.size) :
    ∃ c1 r c2, cirbuf_offer cb data n = some (c1, r) ∧
      cirbuf_poll c1 (toUInt n) = (c2, some cb.head) ∧
      (∀ i, i < n.toNat → load c2 (cb.head + i) = some (data i)) ∧
      cirbuf_is_empty c2 = true ∧ cirbuf_usedspace c2 = 0 := by
  obtain ⟨c0, hoff, f1, f2, hne, hwin, hld⟩ := offer_on_empty cb data n hcap he ht hn hlt
  have hn32 : toUInt n = n.toNat := by unfold toUInt; omega
  have hhead : (if cb.size ≤ cb.head + n.toNat then cb.head + n.toNat - cb.size
      else cb.head + n.toNat) = (cb.tail + n.toNat) % cb.size := by
    rw [he]
    by_cases hw : cb.size ≤ cb.tail + n.toNat
    · rw [if_pos hw, mod_once _ _ hw hwin]
    · rw [if_neg hw, Nat.mod_eq_of_lt (by omega)]
  have hpoll : cirbuf_poll { c0 with tail := (cb.tail + n.toNat) % cb.size } (toUInt n)
      = ({ c0 with tail := (cb.tail + n.toNat) % cb.size,
                   head := (cb.tail + n.toNat) % cb.size }, some cb.head) := by
    rw [hn32, poll_nonempty _ n.toNat (by simpa [f2] using hne) (by simp only [f2]; omega)]
    simp only [f1, f2, hhead]
  refine ⟨_, _, _, hoff, hpoll, ?_, ?_, ?_⟩
  · intro i hi
    simpa [load] using hld i hi
  · simp [cirbuf_is_empty]
  · exact usedspace_empty _ rfl

/-- Witness for `offer_poll_roundtrip`: the bytes of "abcd" offered to a fresh
buffer of capacity `65536` and polled at once. -/
theorem offer_poll_roundtrip_witness :
    ∃ c1 r c2, cirbuf_offer (cirbuf_new 65536) (fun i => 97 + i) 4 = some (c1, r) ∧
      cirbuf_poll c1 (toUInt 4) = (c2, some (cirbuf_new 65536).head) ∧
      (∀ i, i < (4 : Int).toNat →
        load c2 ((cirbuf_new 65536).head + i) = some (97 + i)) ∧
      cirbuf_is_empty c2 = true ∧ cirbuf_usedspace c2 = 0 :=
  offer_poll_roundtrip (cirbuf_new 65536) (fun i => 97 + i) 4 (by decide) rfl (by decide)
    (by decide) (by decide)

/-- C3 as stated fails at capacity `2 ^ 31`: `cirbuf_unusedspace` of the fresh
buffer is `2 ^ 31` returned as `int`, a negative number, so the offer of one
byte is rejected and the poll that follows returns `NULL`. -/
theorem offer_poll_roundtrip_fails_at_2_pow_31 :
    ¬ ∀ (cb : cirbuf_t) (data : Nat → Byte) (n : Int),
      cb.head = cb.tail → cb.tail < cb.size → 0 < n → n < cb.size →
      ∃ c1 r c2, cirbuf_offer cb data n = some (c1, r) ∧
        cirbuf_poll c1 (toUInt n) = (c2, some cb.head) ∧
        (∀ i, i < n.toNat → load c2 (cb.head + i) = some (data i)) ∧
        cirbuf_is_empty c2 = true ∧ cirbuf_usedspace c2 = 0 := by
  intro h
  obtain ⟨c1, r, c2, hoff, hpoll, -⟩ :=
    h (cirbuf_new 2147483648) (fun _ => 7) 1 rfl (by decide) (by decide) (by decide)
  have e : cirbuf_offer (cirbuf_new 2147483648) (fun _ => 7) 1
      = some (cirbuf_new 2147483648, 0) :=
    offer_reject (cirbuf_new 2147483648) (fun _ => 7) 1 (by decide)
  rw [e] at hoff
  simp only [Option.some.injEq, Prod.mk.injEq] at hoff
  obtain ⟨hc, -⟩ := hoff
  subst hc
  have e2 : (cirbuf_poll (cirbuf_new 2147483648) (toUInt 1)).2 = none := by decide
  rw [hpoll] at e2
  cases e2

/-! ## C4: poll on an empty buffer -/

/-- A poll of exactly `cirbuf_usedspace` bytes, on a state with cursors in
range and a capacity of at most `2 ^ 31`, leaves `head = tail`. -/
theorem poll_usedspace_empties (cb : cirbuf_t) (hcap : cb.size ≤ 2 ^ 31)
    (hh : cb.head < cb.size) (ht : cb.tail < cb.size) :
    (cirbuf_poll cb (toUInt (cirbuf_usedspace cb))).1.head
      = (cirbuf_poll cb (toUInt (cirbuf_usedspace cb))).1.tail := by
  by_cases he : cb.head = cb.tail
  · rw [poll_of_empty cb _ he]; exact he
  · have hu := usedspace_val cb hcap hh ht
    have hv : toUInt (cirbuf_usedspace cb)
        = if cb.head ≤ cb.tail then cb.tail - cb.head
          else cb.size - (cb.head - cb.tail) := by
      rw [hu]; unfold toUInt; split_ifs <;> omega
    rw [hv, poll_nonempty cb _ he (by split_ifs <;> omega)]
    simp only
    split_ifs <;> omega

/-- C4 (amended).  On a state with `head = tail`, `cirbuf_poll` of any length
returns `NULL` and leaves the struct, with `head`, `tail` and the stored
bytes, as it was.  Consequently, on a state with `head < size`, `tail < size`
and `size ≤ 2 ^ 31`, after a poll of exactly `cirbuf_usedspace` bytes every
further poll returns `NULL`, for any number of polls of any lengths. -/
theorem poll_empty (cb : cirbuf_t) (n : Nat) :
    (cb.head = cb.tail → cirbuf_poll cb n = (cb, none)) ∧
    (cb.size ≤ 2 ^ 31 → cb.head < cb.size → cb.tail < cb.size →
      ∀ ns : List Nat,
        poll_all (cirbuf_poll cb (toUInt (cirbuf_usedspace cb))).1 ns
          = ((cirbuf_poll cb (toUInt (cirbuf_usedspace cb))).1,
             List.replicate ns.length none)) :=
  ⟨poll_of_empty cb n, fun hcap hh ht ns =>
    poll_all_of_empty _ (poll_usedspace_empties cb hcap hh ht) ns⟩

/-- Witness for `poll_empty`: a poll of 4 on the fresh buffer of capacity
`65536`; and, on that buffer holding 4 bytes (`head = 0`, `tail = 4`), a poll
of `cirbuf_usedspace` followed by two polls of 4. -/
theorem poll_empty_witness :
    cirbuf_poll (cirbuf_new 65536) 4 = (cirbuf_new 65536, none) ∧
    poll_all (cirbuf_poll ⟨65536, 0, 4, fun i => 97 + i⟩
        (toUInt (cirbuf_usedspace ⟨65536, 0, 4, fun i => 97 + i⟩))).1 [4, 4]
      = ((cirbuf_poll ⟨65536, 0, 4, fun i => 97 + i⟩
            (toUInt (cirbuf_usedspace ⟨65536, 0, 4, fun i => 97 + i⟩))).1,
         List.replicate [4, 4].length none) :=
  ⟨(poll_empty (cirbuf_new 65536) 4).1 rfl,
   (poll_empty ⟨65536, 0, 4, fun i => 97 + i⟩ 0).2 (by decide) (by decide) (by decide) [4, 4]⟩

/-- C4 as stated fails for a capacity above `2 ^ 31`.  With
`size = 2 ^ 32 + 4096`, `head = 2 ^ 32 - 1` and `tail = 0`,
`cirbuf_usedspace` returns `4097`; the poll of `4097` wraps the 32-bit head to
`4096`, which is not `tail`, so the next poll does not return `NULL`. -/
theorem poll_after_release_fails_above_int_range :
    ¬ ∀ (cb : cirbuf_t) (n : Nat), cb.head < cb.size → cb.tail < cb.size →
      (cirbuf_poll (cirbuf_poll cb (toUInt (cirbuf_usedspace cb))).1 n).2 = none := by
  intro h
  have e := h ⟨4294971392, 4294967295, 0, fun _ => 0⟩ 1 (by decide) (by decide)
  revert e
  decide

/-! ## C5: peek -/

/-- C5 (amended).  `cirbuf_peek` returns `NULL` exactly when `head = tail`,
and otherwise the reference at window offset `head`; it leaves the struct,
with `head`, `tail` and the stored bytes, as it was; and after an offer of `n`
bytes of `data` (`0 < n < size`) to an empty buffer of capacity below
`2 ^ 31`, the `n` bytes read from the peeked reference are the bytes of
`data`. -/
theorem peek_spec (cb : cirbuf_t) :
    ((cirbuf_peek cb).2 = none ↔ cb.head = cb.tail) ∧
    (cb.head ≠ cb.tail → (cirbuf_peek cb).2 = some cb.head) ∧
    (cirbuf_peek cb).1 = cb ∧
    (∀ (data : Nat → Byte) (n : Int), cb.size < 2 ^ 31 → cb.head = cb.tail →
      cb.tail < cb.size → 0 < n → n < cb.size →
      ∃ c r, cirbuf_offer cb data n = some (c, r) ∧
        (cirbuf_peek c).2 = some cb.head ∧
        ∀ i, i < n.toNat → load c (cb.head + i) = some (data i)) := by
  refine ⟨?_, ?_, ?_, ?_⟩
  · unfold cirbuf_peek cirbuf_is_empty
    by_cases he : cb.head = cb.tail <;> simp [he]
  · intro hne
    unfold cirbuf_peek cirbuf_is_empty
    simp [hne]
  · unfold cirbuf_peek
    split <;> rfl
  · intro data n hcap he ht hn hlt
    obtain ⟨c0, hoff, f1, f2, hne, hwin, hld⟩ := offer_on_empty cb data n hcap he ht hn hlt
    refine ⟨_, _, hoff, ?_, ?_⟩
    · unfold cirbuf_peek cirbuf_is_empty
      simp [f2, hne]
    · intro i hi
      simpa [load] using hld i hi

/-- Witness for `peek_spec`: the bytes of "abcd" offered to a fresh buffer of
capacity `65536` and peeked. -/
theorem peek_spec_witness :
    ∃ c r, cirbuf_offer (cirbuf_new 65536) (fun i => 97 + i) 4 = some (c, r) ∧
      (cirbuf_peek c).2 = some (cirbuf_new 65536).head ∧
      ∀ i, i < (4 : Int).toNat → load c ((cirbuf_new 65536).head + i) = some (97 + i) :=
  (peek_spec (cirbuf_new 65536)).2.2.2 (fun i => 97 + i) 4 (by decide) rfl (by decide)
    (by decide) (by decide)

/-- C5 as stated fails at capacity `2 ^ 31`: the offer of one byte to the
fresh buffer is rejected, and the peek that follows returns `NULL`. -/
theorem peek_after_offer_fails_at_2_pow_31 :
    ¬ ∀ (cb : cirbuf_t) (data : Nat → Byte) (n : Int), cb.head = cb.tail →
      cb.tail < cb.size → 0 < n → n < cb.size →
      ∃ c r, cirbuf_offer cb data n = some (c, r) ∧
        (cirbuf_peek c).2 = some cb.head ∧
        ∀ i, i < n.toNat → load c (cb.head + i) = some (data i) := by
  intro h
  obtain ⟨c, r, hoff, hpeek, -⟩ :=
    h (cirbuf_new 2147483648) (fun _ => 7) 1 rfl (by decide) (by decide) (by decide)
  have e : cirbuf_offer (cirbuf_new 2147483648) (fun _ => 7) 1
      = some (cirbuf_new 2147483648, 0) :=
    offer_reject (cirbuf_new 2147483648) (fun _ => 7) 1 (by decide)
  rw [e] at hoff
  simp only [Option.some.injEq, Prod.mk.injEq] at hoff
  obtain ⟨hc, -⟩ := hoff
  subst hc
  revert hpeek
  decide

/-! ## C6: the fresh buffer -/

/-- C6 (amended).  For a capacity `0 < C < 2 ^ 31`, on the struct made by
`cirbuf_new` the function `cirbuf_size` returns `C`, `cirbuf_is_empty` returns
true, `cirbuf_usedspace` returns `0` and `cirbuf_unusedspace` returns `C`. -/
theorem fresh_buffer (C : Nat) (hpos : 0 < C) (hcap : C < 2 ^ 31) :
    cirbuf_size (cirbuf_new C) = C ∧
    cirbuf_is_empty (cirbuf_new C) = true ∧
    cirbuf_usedspace (cirbuf_new C) = 0 ∧
    cirbuf_unusedspace (cirbuf_new C) = C := by
  have hs : (cirbuf_new C).size = C := by
    show C % 2 ^ 64 = C
    omega
  refine ⟨?_, rfl, usedspace_empty _ rfl, ?_⟩
  · unfold cirbuf_size
    rw [hs]
    unfold toInt
    omega
  · rw [unusedspace_empty _ rfl, hs]
    unfold toInt toULong
    omega

/-- Witness for `fresh_buffer`: capacity `65536`. -/
theorem fresh_buffer_witness :
    cirbuf_size (cirbuf_new 65536) = (65536 : Nat) ∧
    cirbuf_is_empty (cirbuf_new 65536) = true ∧
    cirbuf_usedspace (cirbuf_new 65536) = 0 ∧
    cirbuf_unusedspace (cirbuf_new 65536) = (65536 : Nat) :=
  fresh_buffer 65536 (by decide) (by decide)

/-- C6 as stated fails at capacity `2 ^ 31`: `cirbuf_size` returns the
`unsigned long` field as `int`, which is `-2 ^ 31`. -/
theorem fresh_buffer_fails_at_2_pow_31 :
    ¬ ∀ C : Nat, 0 < C →
      cirbuf_size (cirbuf_new C) = C ∧
      cirbuf_is_empty (cirbuf_new C) = true ∧
      cirbuf_usedspace (cirbuf_new C) = 0 ∧
      cirbuf_unusedspace (cirbuf_new C) = C := by
  intro h
  have e := (h 2147483648 (by decide)).1
  revert e
  decide

/-! ## C7: range of the cursors -/

/-- C7, at the failing input.  On a fresh buffer of capacity `65536`, an offer
of one byte followed by `cirbuf_poll` of `200000` leaves `head = 134464`,
which is not below the capacity: the poll is not refused, and `size` is
subtracted only once. -/
theorem cursor_range_broken_by_poll :
    (run (cirbuf_new 65536) [Call.offer (fun _ => 97) 1, Call.poll 200000]).map
        (fun c => (c.size, c.head, c.tail))
      = some (65536, 134464, 1) := by
  decide

/-! ## C8: the poll transition -/

/-- C8 (amended).  On a state with `head < size`, `tail < size`, `head ≠ tail`
and `size ≤ 2 ^ 31`, for every length `n` with `n ≤ cirbuf_usedspace`,
`cirbuf_poll` of `n` changes the struct only in `head`, which becomes
`(head + n) mod size`; on a state with `head = tail` it changes nothing, for
every `n`. -/
theorem poll_transition (cb : cirbuf_t) (n : Nat) :
    (cb.size ≤ 2 ^ 31 → cb.head < cb.size → cb.tail < cb.size → cb.head ≠ cb.tail →
      (n : Int) ≤ cirbuf_usedspace cb →
      (cirbuf_poll cb n).1 = { cb with head := (cb.head + n) % cb.size }) ∧
    (cb.head = cb.tail → (cirbuf_poll cb n).1 = cb) := by
  constructor
  · intro hcap hh ht hne hn
    rw [usedspace_val cb hcap hh ht] at hn
    have h2 : cb.head + n < 2 * cb.size := by split_ifs at hn <;> omega
    rw [poll_nonempty cb n hne (by omega), wrap_once _ _ h2]
  · intro he
    rw [poll_of_empty cb n he]

/-- Witness for `poll_transition`: with capacity 8, `head = 6`, `tail = 2`
(four bytes held), a poll of 3 moves the head to `(6 + 3) mod 8 = 1`; and a
poll of 3 on the fresh buffer changes nothing. -/
theorem poll_transition_witness :
    (cirbuf_poll ⟨8, 6, 2, fun _ => 0⟩ 3).1
      = { (⟨8, 6, 2, fun _ => 0⟩ : cirbuf_t) with head := (6 + 3) % 8 } ∧
    (cirbuf_poll (cirbuf_new 8) 3).1 = cirbuf_new 8 :=
  ⟨(poll_transition ⟨8, 6, 2, fun _ => 0⟩ 3).1 (by decide) (by decide) (by decide)
      (by decide) (by decide),
   (poll_transition (cirbuf_new 8) 3).2 rfl⟩

/-- C8 as stated fails for a capacity above `2 ^ 31`, on a poll that releases
no more than the bytes held.  With `size = 2 ^ 32 + 4096`, `head = 2 ^ 32 - 2`
and `tail = 1` (three bytes were written from an empty buffer at
`head = tail = 2 ^ 32 - 2`, and `cirbuf_usedspace` returns `4099`), a poll of
`3` wraps the 32-bit head to `1`, while `(head + 3) mod size = 2 ^ 32 + 1`. -/
theorem poll_transition_fails_above_int_range :
    ¬ ∀ (cb : cirbuf_t) (n : Nat), n < 2 ^ 32 →
      cb.head < cb.size → cb.tail < cb.size → cb.head ≠ cb.tail →
      (n : Int) ≤ cirbuf_usedspace cb →
      (cirbuf_poll cb n).1.head = (cb.head + n) % cb.size ∧
      (cirbuf_poll cb n).1.tail = cb.tail := by
  intro h
  have e := (h ⟨4294971392, 4294967294, 1, fun _ => 97⟩ 3 (by decide) (by decide)
    (by decide) (by decide) (by decide)).1
  revert e
  decide

/-! ## C9: a poll larger than the used space -/

/-- C9, at the failing input.  On a buffer of capacity `65536` that holds one
byte (`cirbuf_usedspace` returns `1`), `cirbuf_poll` of `5` does not return
`NULL`: it returns the reference at offset `0` and moves the head to `5`. -/
theorem poll_beyond_used_not_refused :
    (cirbuf_offer (cirbuf_new 65536) (fun _ => 97) 1).map
        (fun r => (cirbuf_usedspace r.1, (cirbuf_poll r.1 5).2,
          (cirbuf_poll r.1 5).1.head, (cirbuf_poll r.1 5).1.tail))
      = some (1, some 0, 5, 1) := by
  decide

/-! ## C10: release of more than the used space -/

/-- C10 (amended).  On a non-empty state with `head < size`, `tail < size`
and `size ≤ 2 ^ 31`, for every `n` with `cirbuf_usedspace < n < size`,
`cirbuf_poll` of `n` returns the reference at the old head, moves the head to
`(head + n) mod size` and keeps the tail; afterwards `cirbuf_is_empty` is
false and `cirbuf_usedspace` returns `size - (n - cirbuf_usedspace before)`. -/
theorem poll_over_release (cb : cirbuf_t) (n : Nat)
    (hcap : cb.size ≤ 2 ^ 31) (hh : cb.head < cb.size) (ht : cb.tail < cb.size)
    (hne : cb.head ≠ cb.tail) (hu : cirbuf_usedspace cb < n) (hn : n < cb.size) :
    (cirbuf_poll cb n).2 = some cb.head ∧
    (cirbuf_poll cb n).1.head = (cb.head + n) % cb.size ∧
    (cirbuf_poll cb n).1.tail = cb.tail ∧
    cirbuf_is_empty (cirbuf_poll cb n).1 = false ∧
    cirbuf_usedspace (cirbuf_poll cb n).1
      = (cb.size : Int) - ((n : Int) - cirbuf_usedspace cb) := by
  have hp := poll_nonempty cb n hne (by omega)
  have hH : (if cb.size ≤ cb.head + n then cb.head + n - cb.size else cb.head + n)
      < cb.size := by
    split_ifs <;> omega
  rw [usedspace_val cb hcap hh ht] at hu ⊢
  rw [hp]
  refine ⟨rfl, (wrap_once _ _ (by omega)), rfl, ?_, ?_⟩
  · simp only [cirbuf_is_empty, decide_eq_false_iff_not]
    split_ifs at hu ⊢ <;> omega
  · have hv := usedspace_val
      { cb with head := if cb.size ≤ cb.head + n then cb.head + n - cb.size
                        else cb.head + n } hcap hH ht
    simp only at hv ⊢
    rw [hv]
    split_ifs at hu ⊢ <;> omega

/-- Witness for `poll_over_release`: capacity `65536`, one byte held
(`head = 0`, `tail = 1`), poll of 5. -/
theorem poll_over_release_witness :
    (cirbuf_poll ⟨65536, 0, 1, fun _ => 97⟩ 5).2
      = some (⟨65536, 0, 1, fun _ => 97⟩ : cirbuf_t).head ∧
    (cirbuf_poll ⟨65536, 0, 1, fun _ => 97⟩ 5).1.head
      = ((⟨65536, 0, 1, fun _ => 97⟩ : cirbuf_t).head + 5)
          % (⟨65536, 0, 1, fun _ => 97⟩ : cirbuf_t).size ∧
    (cirbuf_poll ⟨65536, 0, 1, fun _ => 97⟩ 5).1.tail
      = (⟨65536, 0, 1, fun _ => 97⟩ : cirbuf_t).tail ∧
    cirbuf_is_empty (cirbuf_poll ⟨65536, 0, 1, fun _ => 97⟩ 5).1 = false ∧
    cirbuf_usedspace (cirbuf_poll ⟨65536, 0, 1, fun _ => 97⟩ 5).1
      = ((⟨65536, 0, 1, fun _ => 97⟩ : cirbuf_t).size : Int)
          - (((5 : Nat) : Int) - cirbuf_usedspace ⟨65536, 0, 1, fun _ => 97⟩) :=
  poll_over_release ⟨65536, 0, 1, fun _ => 97⟩ 5 (by decide) (by decide) (by decide)
    (by decide) (by decide) (by decide)

/-- C10 as stated fails for a capacity above `2 ^ 31`.  With
`size = 2 ^ 32 + 4096`, `head = 0` and `tail = 1` (the fresh buffer after an
offer of one byte), `cirbuf_usedspace` returns `1`; after a poll of `2` it
returns `4095`, not `size - (2 - 1)`. -/
theorem poll_over_release_fails_above_int_range :
    ¬ ∀ (cb : cirbuf_t) (n : Nat), cb.head < cb.size → cb.tail < cb.size →
      cb.head ≠ cb.tail → cirbuf_usedspace cb < n → n < cb.size →
      (cirbuf_poll cb n).2 = some cb.head ∧
      (cirbuf_poll cb n).1.head = (cb.head + n) % cb.size ∧
      (cirbuf_poll cb n).1.tail = cb.tail ∧
      cirbuf_is_empty (cirbuf_poll cb n).1 = false ∧
      cirbuf_usedspace (cirbuf_poll cb n).1
        = (cb.size : Int) - ((n : Int) - cirbuf_usedspace cb) := by
  intro h
  have e := (h ⟨4294971392, 0, 1, fun _ => 97⟩ 2 (by decide) (by decide) (by decide)
    (by decide) (by decide)).2.2.2.2
  revert e
  decide

/-! ## C11: consistency of the queries -/

theorem unusedspace_int_range (cb : cirbuf_t) (hcap : cb.size < 2 ^ 31)
    (hh : cb.head < cb.size) (ht : cb.tail < cb.size) :
    cirbuf_unusedspace cb = (cb.size : Int) - cirbuf_usedspace cb := by
  unfold cirbuf_unusedspace
  rw [usedspace_val cb (le_of_lt hcap) hh ht]
  unfold toInt toULong
  split_ifs <;> omega

/-- C11 (amended).  On a state with `0 < size < 2 ^ 31`, `head < size` and
`tail < size`: `cirbuf_usedspace` returns `tail - head` if `head ≤ tail` and
`size - (head - tail)` otherwise; `cirbuf_usedspace + cirbuf_unusedspace` is
`size`; `0 ≤ cirbuf_usedspace ≤ size - 1`, so `cirbuf_unusedspace ≥ 1`; and
`cirbuf_is_empty` holds exactly when `cirbuf_usedspace` is `0`. -/
theorem queries_consistent (cb : cirbuf_t) (hpos : 0 < cb.size) (hcap : cb.size < 2 ^ 31)
    (hh : cb.head < cb.size) (ht : cb.tail < cb.size) :
    cirbuf_usedspace cb
      = (if cb.head ≤ cb.tail then (cb.tail : Int) - cb.head
         else (cb.size : Int) - ((cb.head : Int) - cb.tail)) ∧
    cirbuf_usedspace cb + cirbuf_unusedspace cb = cb.size ∧
    0 ≤ cirbuf_usedspace cb ∧ cirbuf_usedspace cb ≤ (cb.size : Int) - 1 ∧
    1 ≤ cirbuf_unusedspace cb ∧
    (cirbuf_is_empty cb = true ↔ cirbuf_usedspace cb = 0) := by
  have hu := usedspace_val cb (le_of_lt hcap) hh ht
  have hun := unusedspace_int_range cb hcap hh ht
  refine ⟨hu, by omega, ?_, ?_, ?_, ?_⟩
  · rw [hu]; split_ifs <;> omega
  · rw [hu]; split_ifs <;> omega
  · rw [hun, hu]; split_ifs <;> omega
  · simp only [cirbuf_is_empty, decide_eq_true_eq]
    rw [hu]
    split_ifs <;> omega

/-- Witness for `queries_consistent`: capacity 8 with `head = 6`, `tail = 2`
(four bytes held across the end of the storage). -/
theorem queries_consistent_witness :
    cirbuf_usedspace ⟨8, 6, 2, fun _ => 0⟩
      = (if (⟨8, 6, 2, fun _ => 0⟩ : cirbuf_t).head ≤ (⟨8, 6, 2, fun _ => 0⟩ : cirbuf_t).tail
         then ((⟨8, 6, 2, fun _ => 0⟩ : cirbuf_t).tail : Int)
              - (⟨8, 6, 2, fun _ => 0⟩ : cirbuf_t).head
         else ((⟨8, 6, 2, fun _ => 0⟩ : cirbuf_t).size : Int)
              - (((⟨8, 6, 2, fun _ => 0⟩ : cirbuf_t).head : Int)
                 - (⟨8, 6, 2, fun _ => 0⟩ : cirbuf_t).tail)) ∧
    cirbuf_usedspace ⟨8, 6, 2, fun _ => 0⟩ + cirbuf_unusedspace ⟨8, 6, 2, fun _ => 0⟩
      = (⟨8, 6, 2, fun _ => 0⟩ : cirbuf_t).size ∧
    0 ≤ cirbuf_usedspace ⟨8, 6, 2, fun _ => 0⟩ ∧
    cirbuf_usedspace ⟨8, 6, 2, fun _ => 0⟩
      ≤ ((⟨8, 6, 2, fun _ => 0⟩ : cirbuf_t).size : Int) - 1 ∧
    1 ≤ cirbuf_unusedspace ⟨8, 6, 2, fun _ => 0⟩ ∧
    (cirbuf_is_empty ⟨8, 6, 2, fun _ => 0⟩ = true
      ↔ cirbuf_usedspace ⟨8, 6, 2, fun _ => 0⟩ = 0) :=
  queries_consistent ⟨8, 6, 2, fun _ => 0⟩ (by decide) (by decide) (by decide) (by decide)

/-- C11 as stated fails at capacity `2 ^ 31`: on the fresh buffer
`cirbuf_usedspace` returns `0` and `cirbuf_unusedspace` returns `-2 ^ 31`, so
their sum is not the capacity and the unused space is not positive. -/
theorem queries_consistent_fails_at_2_pow_31 :
    ¬ ∀ cb : cirbuf_t, 0 < cb.size → cb.head < cb.size → cb.tail < cb.size →
      cirbuf_usedspace cb
        = (if cb.head ≤ cb.tail then (cb.tail : Int) - cb.head
           else (cb.size : Int) - ((cb.head : Int) - cb.tail)) ∧
      cirbuf_usedspace cb + cirbuf_unusedspace cb = cb.size ∧
      0 ≤ cirbuf_usedspace cb ∧ cirbuf_usedspace cb ≤ (cb.size : Int) - 1 ∧
      1 ≤ cirbuf_unusedspace cb ∧
      (cirbuf_is_empty cb = true ↔ cirbuf_usedspace cb = 0) := by
  intro h
  have e := (h (cirbuf_new 2147483648) (by decide) (by decide) (by decide)).2.2.2.2.1
  revert e
  decide

/-! ## C12: the usable capacity -/

theorem usedspace_congr (a b : cirbuf_t) (h1 : a.size = b.size) (h2 : a.head = b.head)
    (h3 : a.tail = b.tail) : cirbuf_usedspace a = cirbuf_usedspace b := by
  unfold cirbuf_usedspace
  rw [h1, h2, h3]

theorem unusedspace_congr (a b : cirbuf_t) (h1 : a.size = b.size) (h2 : a.head = b.head)
    (h3 : a.tail = b.tail) : cirbuf_unusedspace a = cirbuf_unusedspace b := by
  unfold cirbuf_unusedspace
  rw [usedspace_congr a b h1 h2 h3, h1]

/-- Moving the tail forward by `m` bytes, with wrap at `size`, raises
`cirbuf_usedspace` by `m` as long as the bytes held stay below `size`. -/
theorem usedspace_tail_advance (cb : cirbuf_t) (m : Nat) (hcap : cb.size ≤ 2 ^ 31)
    (hh : cb.head < cb.size) (ht : cb.tail < cb.size)
    (hroom : (m : Int) + cirbuf_usedspace cb < cb.size) :
    (cb.tail + m) % cb.size < cb.size ∧
    cirbuf_usedspace { cb with tail := (cb.tail + m) % cb.size }
      = cirbuf_usedspace cb + m := by
  have hlt : (cb.tail + m) % cb.size < cb.size := Nat.mod_lt _ (by omega)
  have hu := usedspace_val cb hcap hh ht
  have hv := usedspace_val { cb with tail := (cb.tail + m) % cb.size } hcap hh hlt
  simp only at hv
  rw [hu] at hroom
  have hwin : cb.tail + m < 2 * cb.size := by split_ifs at hroom <;> omega
  refine ⟨hlt, ?_⟩
  rw [hv, hu, ← wrap_once _ _ hwin]
  split_ifs at hroom ⊢ <;> omega

/-- C12 (amended).  For a capacity `2 ≤ size < 2 ^ 31`: on an empty state
(`head = tail < size`) an offer of `size - 1` bytes is accepted, after which
`cirbuf_usedspace` returns `size - 1` and `cirbuf_unusedspace` returns `1`,
while an offer of `size` bytes is rejected with `0`; and on a state that
holds `size - 1` bytes every offer of `n ≥ 1` bytes is rejected with `0`. -/
theorem usable_capacity (cb : cirbuf_t) (data : Nat → Byte)
    (hC : 2 ≤ cb.size) (hcap : cb.size < 2 ^ 31) :
    (cb.head = cb.tail → cb.tail < cb.size →
      (∃ c, cirbuf_offer cb data ((cb.size : Int) - 1) = some (c, (cb.size : Int) - 1) ∧
        cirbuf_usedspace c = (cb.size : Int) - 1 ∧ cirbuf_unusedspace c = 1) ∧
      cirbuf_offer cb data cb.size = some (cb, 0)) ∧
    (cb.head < cb.size → cb.tail < cb.size → cirbuf_usedspace cb = (cb.size : Int) - 1 →
      ∀ n : Int, 1 ≤ n → cirbuf_offer cb data n = some (cb, 0)) := by
  constructor
  · intro he ht
    have hh : cb.head < cb.size := he ▸ ht
    have hu0 := usedspace_empty cb he
    constructor
    · obtain ⟨c0, hoff, f1, f2, -, -, -⟩ :=
        offer_on_empty cb data ((cb.size : Int) - 1) hcap he ht (by omega) (by omega)
      obtain ⟨hlt, hadv⟩ := usedspace_tail_advance cb ((cb.size : Int) - 1).toNat
        (le_of_lt hcap) hh ht (by rw [hu0]; omega)
      have hused : cirbuf_usedspace
          { c0 with tail := (cb.tail + ((cb.size : Int) - 1).toNat) % cb.size }
          = (cb.size : Int) - 1 := by
        rw [usedspace_congr
          { c0 with tail := (cb.tail + ((cb.size : Int) - 1).toNat) % cb.size }
          { cb with tail := (cb.tail + ((cb.size : Int) - 1).toNat) % cb.size }
          f1 f2 rfl, hadv, hu0]
        omega
      refine ⟨_, hoff, hused, ?_⟩
      rw [unusedspace_int_range _ (by simpa [f1] using hcap) (by simpa [f1, f2] using hh)
        (by simpa [f1] using hlt), hused]
      simp only [f1]
      omega
    · apply offer_reject
      rw [unusedspace_empty cb he]
      unfold toInt toULong
      omega
  · intro hh ht hfull n hn
    apply offer_reject
    rw [unusedspace_int_range cb hcap hh ht, hfull]
    omega

/-- Witness for `usable_capacity`: capacity 8, the fresh buffer for the first
part and `head = 3`, `tail = 2` (seven bytes held) for the second. -/
theorem usable_capacity_witness :
    ((∃ c, cirbuf_offer (cirbuf_new 8) (fun i => 97 + i) (((cirbuf_new 8).size : Int) - 1)
          = some (c, ((cirbuf_new 8).size : Int) - 1) ∧
        cirbuf_usedspace c = ((cirbuf_new 8).size : Int) - 1 ∧ cirbuf_unusedspace c = 1) ∧
      cirbuf_offer (cirbuf_new 8) (fun i => 97 + i) (cirbuf_new 8).size
        = some (cirbuf_new 8, 0)) ∧
    (∀ n : Int, 1 ≤ n →
      cirbuf_offer ⟨8, 3, 2, fun _ => 0⟩ (fun i => 97 + i) n
        = some (⟨8, 3, 2, fun _ => 0⟩, 0)) :=
  ⟨(usable_capacity (cirbuf_new 8) (fun i => 97 + i) (by decide) (by decide)).1 rfl
      (by decide),
   (usable_capacity ⟨8, 3, 2, fun _ => 0⟩ (fun i => 97 + i) (by decide) (by decide)).2
      (by decide) (by decide) (by decide)⟩

/-- C12 as stated fails at capacity `2 ^ 31`: on the fresh buffer the offer of
`2 ^ 31 - 1` bytes is rejected with `0`, because `cirbuf_unusedspace` returns
`-2 ^ 31`. -/
theorem usable_capacity_fails_at_2_pow_31 :
    ¬ ∀ (cb : cirbuf_t) (data : Nat → Byte), 2 ≤ cb.size →
      cb.head = cb.tail → cb.tail < cb.size →
      ∃ c, cirbuf_offer cb data ((cb.size : Int) - 1) = some (c, (cb.size : Int) - 1) ∧
        cirbuf_usedspace c = (cb.size : Int) - 1 ∧ cirbuf_unusedspace c = 1 := by
  intro h
  obtain ⟨c, hoff, -⟩ := h (cirbuf_new 2147483648) (fun _ => 7) (by decide) rfl (by decide)
  have e : cirbuf_offer (cirbuf_new 2147483648) (fun _ => 7)
      (((cirbuf_new 2147483648).size : Int) - 1) = some (cirbuf_new 2147483648, 0) :=
    offer_reject _ _ _ (by decide)
  rw [e] at hoff
  simp only [Option.some.injEq, Prod.mk.injEq] at hoff
  obtain ⟨-, h0⟩ := hoff
  revert h0
  decide

/-! ## C13: the mirror -/

theorem offer_size (cb c : cirbuf_t) (data : Nat → Byte) (n r : Int)
    (h : cirbuf_offer cb data n = some (c, r)) : c.size = cb.size := by
  unfold cirbuf_offer at h
  split_ifs at h with h1
  · cases h; rfl
  · cases hm : memcpy cb cb.tail data (toULong n) with
    | none => rw [hm] at h; cases h
    | some c0 =>
      rw [hm] at h
      have f1 := (memcpy_fields cb cb.tail data (toULong n) c0 hm).1
      simp only at h
      split_ifs at h <;> cases h <;> exact f1

theorem poll_size (cb : cirbuf_t) (n : Nat) : (cirbuf_poll cb n).1.size = cb.size := by
  unfold cirbuf_poll
  simp only
  split_ifs <;> rfl

theorem peek_state (cb : cirbuf_t) : (cirbuf_peek cb).1 = cb := by
  unfold cirbuf_peek
  split <;> rfl

theorem call_size (cb c : cirbuf_t) (op : Call) (h : call cb op = some c) :
    c.size = cb.size := by
  cases op with
  | offer data n =>
    simp only [call, Option.map_eq_some'] at h
    obtain ⟨⟨c1, r⟩, h1, h2⟩ := h
    simp only at h2
    subst h2
    exact offer_size cb c1 data n r h1
  | peek =>
    simp only [call, Option.some.injEq] at h
    rw [← h, peek_state]
  | poll n =>
    simp only [call, Option.some.injEq] at h
    rw [← h, poll_size]

theorem run_size (ops : List Call) : ∀ cb c : cirbuf_t, run cb ops = some c →
    c.size = cb.size := by
  induction ops with
  | nil => intro cb c h; cases h; rfl
  | cons op ops ih =>
    intro cb c h
    simp only [run] at h
    cases h1 : call cb op with
    | none => rw [h1] at h; cases h
    | some c1 =>
      rw [h1] at h
      exact (ih c1 c h).trans (call_size cb c1 op h1)

theorem span_ge (len page : Nat) (hp : page ≠ 0) :
    len ≤ (len + page - 1) / page * page := by
  have h1 := Nat.div_add_mod (len + page - 1) page
  have h2 := Nat.mod_lt (len + page - 1) (Nat.pos_of_ne_zero hp)
  rw [Nat.mul_comm] at h1
  omega

/-- What a successful `mmap` has checked and what it leaves mapped. -/
theorem mmap_some (K : Kernel) (space s : Space) (addr len a : Nat) (prot : List Prot)
    (flags : List MapFlag) (fd : Int) (off : Nat)
    (h : mmap K space addr len prot flags fd off = some (a, s)) :
    len ≠ 0 ∧ K.page ≠ 0 ∧ a ≠ 0 ∧ a % K.page = 0 ∧ a + len < 2 ^ 64 ∧
    (MapFlag.MAP_ANONYMOUS ∉ flags → 0 ≤ fd) ∧
    (MapFlag.MAP_FIXED ∈ flags → a = addr) ∧
    ∀ x, s x =
      if a ≤ x ∧ x < a + (len + K.page - 1) / K.page * K.page then
        some { prot := prot,
               file := if MapFlag.MAP_ANONYMOUS ∈ flags then none
                       else some (fd, off + (x - a)),
               shared := decide (MapFlag.MAP_SHARED ∈ flags) }
      else space x := by
  by_cases h1 : len = 0 ∨ K.page = 0 ∨ off % K.page ≠ 0
  · simp only [mmap, if_pos h1] at h
    cases h
  by_cases h2 : MapFlag.MAP_ANONYMOUS ∉ flags ∧ fd < 0
  · simp only [mmap, if_neg h1, if_pos h2] at h
    cases h
  simp only [mmap, if_neg h1, if_neg h2] at h
  split at h
  · cases h
  · next t ht =>
    by_cases h3 : t = 0 ∨ t % K.page ≠ 0 ∨ 2 ^ 64 ≤ t + len
    · rw [if_pos h3] at h
      cases h
    rw [if_neg h3] at h
    simp only [Option.some.injEq, Prod.mk.injEq] at h
    obtain ⟨ha, hs⟩ := h
    subst ha
    refine ⟨by omega, by omega, by omega, by omega, by omega, ?_, ?_, ?_⟩
    · intro hanon
      by_contra hneg
      exact h2 ⟨hanon, by omega⟩
    · intro hfix
      rw [if_pos hfix] at ht
      split_ifs at ht
      simpa using ht.symm
    · intro x
      rw [← hs]

/-- The binding of a byte of the window: readable, writable, shared, and
backed by the byte `k` of the file `fd`. -/
theorem mirror_bindings (K : Kernel) (space : Space) (C : Nat) (m : Mirror)
    (hm : create_buffer_mirror K space C = some m) :
    C ≠ 0 ∧ m.data + 2 * C < 2 ^ 64 ∧ K.page ≠ 0 ∧ m.data % K.page = 0 ∧ C % K.page = 0 ∧
    ∀ k, k < C →
      m.space (m.data + k)
        = some ⟨[Prot.PROT_READ, Prot.PROT_WRITE], some (m.fd, k), true⟩ ∧
      m.space (m.data + (k + C))
        = some ⟨[Prot.PROT_READ, Prot.PROT_WRITE], some (m.fd, k), true⟩ := by
  simp only [create_buffer_mirror] at hm
  split_ifs at hm with e1 e2 e3
  split at hm
  · cases hm
  · next data s1 h1 =>
    split at hm
    · cases hm
    · next a1 s2 h2 =>
      split_ifs at hm with e4
      split at hm
      · cases hm
      · next a2 s3 h3 =>
        split_ifs at hm with e5
        simp only [Option.some.injEq] at hm
        subst hm
        simp only
        obtain ⟨-, hp, -, hd, -, -, -, -⟩ := mmap_some _ _ _ _ _ _ _ _ _ _ h1
        obtain ⟨hC0, -, -, -, hr2, -, -, hs2⟩ := mmap_some _ _ _ _ _ _ _ _ _ _ h2
        obtain ⟨-, -, -, ha2, hr3, -, -, hs3⟩ := mmap_some _ _ _ _ _ _ _ _ _ _ h3
        have e4' : a1 = data := by simpa using e4
        have e5' : a2 = (data + C) % 2 ^ 64 := by simpa using e5
        subst e4'
        have hw : (a1 + C) % 2 ^ 64 = a1 + C := Nat.mod_eq_of_lt hr2
        rw [hw] at e5'
        subst e5'
        have hspan := span_ge C K.page hp
        have hCp : C % K.page = 0 := by
          have := Nat.add_mod a1 C K.page
          rw [ha2, hd, Nat.zero_add, Nat.mod_mod] at this
          exact this.symm
        refine ⟨hC0, by omega, hp, hd, hCp, ?_⟩
        intro k hk
        constructor
        · rw [hs3, if_neg (by omega), hs2, if_pos (by omega)]
          simp
        · rw [hs3, if_pos (by omega)]
          simp
          omega

theorem read_bound (space : Space) (fd : Int) (len : Nat) (file : Nat → Byte) (a k : Nat)
    (hb : space a = some ⟨[Prot.PROT_READ, Prot.PROT_WRITE], some (fd, k), true⟩)
    (hk : k < len) : read_byte space fd len file a = some (file k) := by
  simp [read_byte, hb, hk]

theorem write_bound (space : Space) (fd : Int) (len : Nat) (file : Nat → Byte) (a k : Nat)
    (v : Byte)
    (hb : space a = some ⟨[Prot.PROT_READ, Prot.PROT_WRITE], some (fd, k), true⟩)
    (hk : k < len) :
    write_byte space fd len file a v = some (fun j => if j = k then v else file j) := by
  simp [write_byte, hb, hk]

/-- C13.  When `create_buffer_mirror` returns for the capacity `C`, then for
every `k < C` the addresses `cb->data + k` and `cb->data + k + C` of the window
are bound, readable and writable, to the same byte `k` of the same shared
file.  In every struct reached from `cirbuf_new` by a sequence of
`cirbuf_offer`, `cirbuf_peek` and `cirbuf_poll` calls both addresses read the
same value, a byte stored through either one is read back through both, and
the loads and stores through the window are the ones the operations are
embedded with. -/
theorem mirroring (K : Kernel) (space : Space) (C : Nat) (m : Mirror)
    (hm : create_buffer_mirror K space C = some m) (ops : List Call) (cb : cirbuf_t)
    (hrun : run (cirbuf_new C) ops = some cb) (k : Nat) (hk : k < C) :
    m.space (m.data + k)
      = some ⟨[Prot.PROT_READ, Prot.PROT_WRITE], some (m.fd, k), true⟩ ∧
    m.space (m.data + (k + C))
      = some ⟨[Prot.PROT_READ, Prot.PROT_WRITE], some (m.fd, k), true⟩ ∧
    read_byte m.space m.fd C cb.data (m.data + (k + C))
      = read_byte m.space m.fd C cb.data (m.data + k) ∧
    (∀ b, ∃ f, write_byte m.space m.fd C cb.data (m.data + k) b = some f ∧
      read_byte m.space m.fd C f (m.data + k) = some b ∧
      read_byte m.space m.fd C f (m.data + (k + C)) = some b) ∧
    (∀ b, ∃ f, write_byte m.space m.fd C cb.data (m.data + (k + C)) b = some f ∧
      read_byte m.space m.fd C f (m.data + k) = some b ∧
      read_byte m.space m.fd C f (m.data + (k + C)) = some b) ∧
    (∀ v, v < 2 * C → read_byte m.space m.fd C cb.data (m.data + v) = load cb v) ∧
    (∀ v b, v < 2 * C →
      write_byte m.space m.fd C cb.data (m.data + v) b
        = (store cb v b).map cirbuf_t.data) := by
  obtain ⟨-, hr, -, -, -, hb⟩ := mirror_bindings K space C m hm
  have hs : cb.size = C := by
    rw [run_size ops _ cb hrun]
    show C % 2 ^ 64 = C
    omega
  obtain ⟨b1, b2⟩ := hb k hk
  refine ⟨b1, b2, ?_, ?_, ?_, ?_, ?_⟩
  · rw [read_bound _ _ _ _ _ k b1 hk, read_bound _ _ _ _ _ k b2 hk]
  · intro b
    refine ⟨_, write_bound _ _ _ _ _ k b b1 hk, ?_, ?_⟩
    · rw [read_bound _ _ _ _ _ k b1 hk]; simp
    · rw [read_bound _ _ _ _ _ k b2 hk]; simp
  · intro b
    refine ⟨_, write_bound _ _ _ _ _ k b b2 hk, ?_, ?_⟩
    · rw [read_bound _ _ _ _ _ k b1 hk]; simp
    · rw [read_bound _ _ _ _ _ k b2 hk]; simp
  · intro v hv
    by_cases h1 : v < C
    · rw [read_bound _ _ _ _ _ v (hb v h1).1 h1]
      simp [load, window_offset, hs, h1]
    · have e : v = (v - C) + C := by omega
      have h2 : v - C < C := by omega
      have hb2 := (hb (v - C) h2).2
      rw [← e] at hb2
      rw [read_bound _ _ _ _ _ (v - C) hb2 h2]
      simp [load, window_offset, hs, h1, hv]
  · intro v b hv
    by_cases h1 : v < C
    · rw [write_bound _ _ _ _ _ v b (hb v h1).1 h1]
      simp [store, window_offset, hs, h1]
    · have e : v = (v - C) + C := by omega
      have h2 : v - C < C := by omega
      have hb2 := (hb (v - C) h2).2
      rw [← e] at hb2
      rw [write_bound _ _ _ _ _ (v - C) b hb2 h2]
      simp [store, window_offset, hs, h1, hv]

/-- Witness for `mirroring`: page size 4096, capacity 65536, the window placed
at address `1048576`; after an offer of four bytes and a poll of two, at
`k = 5`. -/
theorem mirroring_witness :
    ∃ m cb,
      create_buffer_mirror ⟨4096, 3, 0, fun _ => 0, fun _ => some 1048576, fun _ _ => true⟩
        (fun _ => none) 65536 = some m ∧
      run (cirbuf_new 65536) [Call.offer (fun i => 97 + i) 4, Call.poll 2] = some cb ∧
      m.space (m.data + 5)
        = some ⟨[Prot.PROT_READ, Prot.PROT_WRITE], some (m.fd, 5), true⟩ ∧
      m.space (m.data + (5 + 65536))
        = some ⟨[Prot.PROT_READ, Prot.PROT_WRITE], some (m.fd, 5), true⟩ ∧
      read_byte m.space m.fd 65536 cb.data (m.data + (5 + 65536))
        = read_byte m.space m.fd 65536 cb.data (m.data + 5) := by
  have h1 : (create_buffer_mirror
      ⟨4096, 3, 0, fun _ => 0, fun _ => some 1048576, fun _ _ => true⟩
      (fun _ => none) 65536).isSome = true := by decide
  have h2 : (run (cirbuf_new 65536) [Call.offer (fun i => 97 + i) 4, Call.poll 2]).isSome
      = true := by decide
  obtain ⟨m, hm⟩ := Option.isSome_iff_exists.mp h1
  obtain ⟨cb, hcb⟩ := Option.isSome_iff_exists.mp h2
  have h := mirroring _ _ 65536 m hm _ cb hcb 5 (by decide)
  exact ⟨m, cb, hm, hcb, h.1, h.2.1, h.2.2.1⟩

/-! ## C14: a poll within the used space -/

/-- A poll of at most `cirbuf_usedspace` bytes on a non-empty state with
cursors in range and a capacity of at most `2 ^ 31`. -/
theorem poll_within_used (cb : cirbuf_t) (n : Nat) (hcap : cb.size ≤ 2 ^ 31)
    (hh : cb.head < cb.size) (ht : cb.tail < cb.size) (hne : cb.head ≠ cb.tail)
    (hn : (n : Int) ≤ cirbuf_usedspace cb) :
    cirbuf_poll cb n = ({ cb with head := (cb.head + n) % cb.size }, some cb.head) ∧
    cb.head + n < 2 * cb.size ∧
    (cb.head + n) % cb.size < cb.size ∧
    cirbuf_usedspace { cb with head := (cb.head + n) % cb.size }
      = cirbuf_usedspace cb - n := by
  have hu := usedspace_val cb hcap hh ht
  have hlt : (cb.head + n) % cb.size < cb.size := Nat.mod_lt _ (by omega)
  have hv := usedspace_val { cb with head := (cb.head + n) % cb.size } hcap hlt ht
  simp only at hv
  rw [hu] at hn
  have hwin : cb.head + n < 2 * cb.size := by split_ifs at hn <;> omega
  refine ⟨?_, hwin, hlt, ?_⟩
  · rw [poll_nonempty cb n hne (by omega), wrap_once _ _ hwin]
  · rw [hv, hu, ← wrap_once _ _ hwin]
    split_ifs at hn ⊢ <;> omega

/-- C14 (amended).  On a non-empty state with `head < size`, `tail < size`
and `size ≤ 2 ^ 31`, for every `n` with `0 ≤ n ≤ cirbuf_usedspace`,
`cirbuf_poll` of `n` returns the reference at the old head, sets `head` to
`(head + n) mod size`, reached by subtracting `size` at most once, so that
`head` stays below `size`; it keeps `tail`, `size` and the stored bytes; and
afterwards `cirbuf_usedspace` is exactly `n` smaller. -/
theorem poll_in_bounds (cb : cirbuf_t) (n : Nat) (hcap : cb.size ≤ 2 ^ 31)
    (hh : cb.head < cb.size) (ht : cb.tail < cb.size) (hne : cb.head ≠ cb.tail)
    (hn : (n : Int) ≤ cirbuf_usedspace cb) :
    (cirbuf_poll cb n).2 = some cb.head ∧
    (cirbuf_poll cb n).1.head = (cb.head + n) % cb.size ∧
    (cirbuf_poll cb n).1.head
      = (if cb.size ≤ cb.head + n then cb.head + n - cb.size else cb.head + n) ∧
    (cirbuf_poll cb n).1.head < cb.size ∧
    (cirbuf_poll cb n).1.tail = cb.tail ∧
    (cirbuf_poll cb n).1.size = cb.size ∧
    (cirbuf_poll cb n).1.data = cb.data ∧
    cirbuf_usedspace (cirbuf_poll cb n).1 = cirbuf_usedspace cb - n := by
  obtain ⟨hp, hwin, hlt, hused⟩ := poll_within_used cb n hcap hh ht hne hn
  rw [hp]
  exact ⟨rfl, rfl, (wrap_once _ _ hwin).symm, hlt, rfl, rfl, rfl, hused⟩

/-- Witness for `poll_in_bounds`: capacity 8, `head = 6`, `tail = 2` (four
bytes held across the end of the storage), poll of 3. -/
theorem poll_in_bounds_witness :
    (cirbuf_poll ⟨8, 6, 2, fun i => 97 + i⟩ 3).2
      = some (⟨8, 6, 2, fun i => 97 + i⟩ : cirbuf_t).head ∧
    (cirbuf_poll ⟨8, 6, 2, fun i => 97 + i⟩ 3).1.head
      = ((⟨8, 6, 2, fun i => 97 + i⟩ : cirbuf_t).head + 3)
          % (⟨8, 6, 2, fun i => 97 + i⟩ : cirbuf_t).size ∧
    (cirbuf_poll ⟨8, 6, 2, fun i => 97 + i⟩ 3).1.head
      = (if (⟨8, 6, 2, fun i => 97 + i⟩ : cirbuf_t).size
            ≤ (⟨8, 6, 2, fun i => 97 + i⟩ : cirbuf_t).head + 3
         then (⟨8, 6, 2, fun i => 97 + i⟩ : cirbuf_t).head + 3
            - (⟨8, 6, 2, fun i => 97 + i⟩ : cirbuf_t).size
         else (⟨8, 6, 2, fun i => 97 + i⟩ : cirbuf_t).head + 3) ∧
    (cirbuf_poll ⟨8, 6, 2, fun i => 97 + i⟩ 3).1.head
      < (⟨8, 6, 2, fun i => 97 + i⟩ : cirbuf_t).size ∧
    (cirbuf_poll ⟨8, 6, 2, fun i => 97 + i⟩ 3).1.tail
      = (⟨8, 6, 2, fun i => 97 + i⟩ : cirbuf_t).tail ∧
    (cirbuf_poll ⟨8, 6, 2, fun i => 97 + i⟩ 3).1.size
      = (⟨8, 6, 2, fun i => 97 + i⟩ : cirbuf_t).size ∧
    (cirbuf_poll ⟨8, 6, 2, fun i => 97 + i⟩ 3).1.data
      = (⟨8, 6, 2, fun i => 97 + i⟩ : cirbuf_t).data ∧
    cirbuf_usedspace (cirbuf_poll ⟨8, 6, 2, fun i => 97 + i⟩ 3).1
      = cirbuf_usedspace ⟨8, 6, 2, fun i => 97 + i⟩ - (3 : Nat) :=
  poll_in_bounds ⟨8, 6, 2, fun i => 97 + i⟩ 3 (by decide) (by decide) (by decide)
    (by decide) (by decide)

/-- C14 as stated fails for a capacity above `2 ^ 31`.  With
`size = 2 ^ 32 + 4096`, `head = 2 ^ 32 - 1` and `tail = 0`,
`cirbuf_usedspace` returns `4097`; a poll of `1` wraps the 32-bit head to `0`
instead of `(head + 1) mod size = 2 ^ 32`. -/
theorem poll_in_bounds_fails_above_int_range :
    ¬ ∀ (cb : cirbuf_t) (n : Nat), cb.head < cb.size → cb.tail < cb.size →
      cb.head ≠ cb.tail → (n : Int) ≤ cirbuf_usedspace cb →
      (cirbuf_poll cb n).2 = some cb.head ∧
      (cirbuf_poll cb n).1.head = (cb.head + n) % cb.size ∧
      (cirbuf_poll cb n).1.tail = cb.tail ∧
      cirbuf_usedspace (cirbuf_poll cb n).1 = cirbuf_usedspace cb - n := by
  intro h
  have e := (h ⟨4294971392, 4294967295, 0, fun _ => 0⟩ 1 (by decide) (by decide)
    (by decide) (by decide)).2.1
  revert e
  decide

/-! ## C16: accesses stay inside the window -/

theorem toInt_lt (x : Int) : toInt x < 2 ^ 31 := by
  unfold toInt
  omega

theorem usedspace_lt (cb : cirbuf_t) : cirbuf_usedspace cb < 2 ^ 31 := by
  unfold cirbuf_usedspace
  split_ifs <;> exact toInt_lt _

theorem unusedspace_lt (cb : cirbuf_t) : cirbuf_unusedspace cb < 2 ^ 31 :=
  toInt_lt _

/-- With cursors in range, `cirbuf_usedspace` is below `size` and
`cirbuf_unusedspace` is at most `size`, whatever the capacity. -/
theorem space_le_size (cb : cirbuf_t) (hh : cb.head < cb.size) (ht : cb.tail < cb.size) :
    cirbuf_usedspace cb < cb.size ∧ cirbuf_unusedspace cb ≤ cb.size := by
  by_cases hcap : cb.size < 2 ^ 31
  · have hu := usedspace_val cb (le_of_lt hcap) hh ht
    have hun := unusedspace_int_range cb hcap hh ht
    rw [hun, hu]
    split_ifs <;> omega
  · have h1 := usedspace_lt cb
    have h2 := unusedspace_lt cb
    omega

/-- An offer of `n ≥ 0` bytes that passes the space test and whose copy fits
the window returns `n`. -/
theorem offer_returns (cb : cirbuf_t) (data : Nat → Byte) (n : Int) (hpos : 0 < cb.size)
    (h0 : 0 ≤ n) (hlt : n < cirbuf_unusedspace cb)
    (hwin : cb.tail + n.toNat ≤ 2 * cb.size) :
    ∃ c, cirbuf_offer cb data n = some (c, n) := by
  have h31 := unusedspace_lt cb
  have hsz : toULong n = n.toNat := by unfold toULong; omega
  obtain ⟨c0, hc0⟩ := memcpy_ok cb cb.tail data n.toNat hwin
  have f1 := (memcpy_fields cb cb.tail data n.toNat c0 hc0).1
  unfold cirbuf_offer
  rw [if_neg (by omega), hsz, hc0]
  simp only
  have hne : c0.size ≠ 0 := by omega
  split_ifs
  · exact ⟨_, rfl⟩
  · exact ⟨_, rfl⟩

theorem poll_load (cb : cirbuf_t) (m v : Nat) : load (cirbuf_poll cb m).1 v = load cb v := by
  unfold cirbuf_poll
  simp only
  split_ifs <;> rfl

theorem poll_ref (cb : cirbuf_t) (m e : Nat) (h : (cirbuf_poll cb m).2 = some e) :
    e = cb.head := by
  unfold cirbuf_poll at h
  simp only at h
  split_ifs at h <;> simp_all

theorem peek_ref (cb : cirbuf_t) (e : Nat) (h : (cirbuf_peek cb).2 = some e) :
    e = cb.head := by
  unfold cirbuf_peek at h
  split_ifs at h
  simpa using h.symm

theorem load_in_window (cb : cirbuf_t) (v : Nat) (h : v < 2 * cb.size) :
    ∃ b, load cb v = some b := by
  unfold load window_offset
  split_ifs
  · exact ⟨_, rfl⟩
  · exact ⟨_, rfl⟩

/-- C16 (amended).  On a state with `0 < size`, `head < size` and
`tail < size`: an accepted offer of `n ≥ 0` bytes has `tail + n < 2 * size`,
its copy succeeds and every offset it writes denotes a byte of the storage; and
`head + cirbuf_usedspace < 2 * size`, so that each of the `cirbuf_usedspace`
bytes read from the reference returned by `cirbuf_peek` or `cirbuf_poll` is
inside the window.  Both spans start below `size` and end below `2 * size`,
so they cross the offset `size` at most once. -/
theorem accesses_in_window (cb : cirbuf_t) (hpos : 0 < cb.size)
    (hh : cb.head < cb.size) (ht : cb.tail < cb.size) :
    (∀ (data : Nat → Byte) (n : Int), 0 ≤ n → n < cirbuf_unusedspace cb →
      cb.tail + n.toNat < 2 * cb.size ∧
      (∃ c, cirbuf_offer cb data n = some (c, n)) ∧
      (∀ i, i < n.toNat →
        ∃ k, k < cb.size ∧ window_offset cb.size (cb.tail + i) = some k)) ∧
    (cb.head : Int) + cirbuf_usedspace cb < 2 * cb.size ∧
    (∀ e, (cirbuf_peek cb).2 = some e →
      (e : Int) + cirbuf_usedspace cb < 2 * cb.size ∧
      ∀ i : Nat, (i : Int) < cirbuf_usedspace cb → ∃ b, load cb (e + i) = some b) ∧
    (∀ m e, (cirbuf_poll cb m).2 = some e →
      (e : Int) + cirbuf_usedspace cb < 2 * cb.size ∧
      ∀ i : Nat, (i : Int) < cirbuf_usedspace cb →
        ∃ b, load (cirbuf_poll cb m).1 (e + i) = some b) := by
  obtain ⟨hu, hun⟩ := space_le_size cb hh ht
  refine ⟨?_, by omega, ?_, ?_⟩
  · intro data n h0 hlt
    have hwin : cb.tail + n.toNat < 2 * cb.size := by omega
    refine ⟨hwin, offer_returns cb data n hpos h0 hlt (le_of_lt hwin), ?_⟩
    intro i hi
    unfold window_offset
    by_cases h1 : cb.tail + i < cb.size
    · exact ⟨_, h1, by rw [if_pos h1]⟩
    · exact ⟨cb.tail + i - cb.size, by omega, by rw [if_neg h1, if_pos (by omega)]⟩
  · intro e he
    rw [peek_ref cb e he]
    exact ⟨by omega, fun i hi => load_in_window cb _ (by omega)⟩
  · intro m e he
    rw [poll_ref cb m e he]
    refine ⟨by omega, fun i hi => ?_⟩
    rw [poll_load]
    exact load_in_window cb _ (by omega)

/-- Witness for `accesses_in_window`: capacity 8 with `head = 6`, `tail = 2`;
an offer of three bytes, a peek and a poll of two. -/
theorem accesses_in_window_witness :
    ((⟨8, 6, 2, fun i => 97 + i⟩ : cirbuf_t).tail + (3 : Int).toNat
        < 2 * (⟨8, 6, 2, fun i => 97 + i⟩ : cirbuf_t).size ∧
      (∃ c, cirbuf_offer ⟨8, 6, 2, fun i => 97 + i⟩ (fun i => 65 + i) 3 = some (c, 3))) ∧
    ((⟨8, 6, 2, fun i => 97 + i⟩ : cirbuf_t).head : Int)
        + cirbuf_usedspace ⟨8, 6, 2, fun i => 97 + i⟩
      < 2 * (⟨8, 6, 2, fun i => 97 + i⟩ : cirbuf_t).size ∧
    (∃ b, load ⟨8, 6, 2, fun i => 97 + i⟩ (6 + 3) = some b) ∧
    (∃ b, load (cirbuf_poll ⟨8, 6, 2, fun i => 97 + i⟩ 2).1 (6 + 3) = some b) :=
  ⟨⟨((accesses_in_window ⟨8, 6, 2, fun i => 97 + i⟩ (by decide) (by decide)
        (by decide)).1 (fun i => 65 + i) 3 (by decide) (by decide)).1,
    ((accesses_in_window ⟨8, 6, 2, fun i => 97 + i⟩ (by decide) (by decide)
        (by decide)).1 (fun i => 65 + i) 3 (by decide) (by decide)).2.1⟩,
   (accesses_in_window ⟨8, 6, 2, fun i => 97 + i⟩ (by decide) (by decide)
        (by decide)).2.1,
   ((accesses_in_window ⟨8, 6, 2, fun i => 97 + i⟩ (by decide) (by decide)
        (by decide)).2.2.1 6 (by decide)).2 3 (by decide),
   ((accesses_in_window ⟨8, 6, 2, fun i => 97 + i⟩ (by decide) (by decide)
        (by decide)).2.2.2 2 6 (by decide)).2 3 (by decide)⟩

/-- A copy that runs past the end of the window has no defined result. -/
theorem memcpy_beyond (cb : cirbuf_t) (dst : Nat) (src : Nat → Byte) (n : Nat)
    (hn : 0 < n) (h : 2 * cb.size < dst + n) : memcpy cb dst src n = none := by
  cases n with
  | zero => omega
  | succ n =>
    simp only [memcpy]
    cases hm : memcpy cb dst src n with
    | none => rfl
    | some c1 =>
      have hs := (memcpy_fields cb dst src n c1 hm).1
      simp only [Option.some_bind, store, window_offset, hs]
      rw [if_neg (by omega), if_neg (by omega)]

/-- C16 as stated fails for a negative length.  On the fresh buffer of
capacity `4096` the offer of `-1` bytes passes the space test (`4096 ≤ -1` is
false) and `memcpy` is called with the length `(size_t)-1 = 2 ^ 64 - 1`: the
copy leaves the window, and the call has no defined result. -/
theorem accesses_in_window_fails_for_negative_length :
    ¬ ∀ (cb : cirbuf_t) (data : Nat → Byte) (n : Int), 0 < cb.size →
      cb.head < cb.size → cb.tail < cb.size → n < cirbuf_unusedspace cb →
      (cb.tail : Int) + n < 2 * cb.size ∧ ∃ c, cirbuf_offer cb data n = some (c, n) := by
  intro h
  obtain ⟨-, c, hc⟩ := h (cirbuf_new 4096) (fun _ => 7) (-1) (by decide) (by decide)
    (by decide) (by decide)
  have hlen : toULong (-1) = 18446744073709551615 := by decide
  have e : cirbuf_offer (cirbuf_new 4096) (fun _ => 7) (-1) = none := by
    unfold cirbuf_offer
    rw [if_neg (by decide), hlen,
      memcpy_beyond (cirbuf_new 4096) _ _ 18446744073709551615 (by decide) (by decide)]
  rw [e] at hc
  cases hc

/-! ## C17: the fixed-width arithmetic on capacities within `int` range -/

theorem usedspace_eq_unbounded (cb : cirbuf_t) (hcap : cb.size ≤ 2 ^ 31)
    (hh : cb.head < cb.size) (ht : cb.tail < cb.size) :
    cirbuf_usedspace cb = usedspace_unbounded cb :=
  usedspace_val cb hcap hh ht

theorem unusedspace_eq_unbounded (cb : cirbuf_t) (hcap : cb.size < 2 ^ 31)
    (hh : cb.head < cb.size) (ht : cb.tail < cb.size) :
    cirbuf_unusedspace cb = unusedspace_unbounded cb := by
  rw [unusedspace_int_range cb hcap hh ht, usedspace_eq_unbounded cb (le_of_lt hcap) hh ht]
  rfl

theorem offer_eq_unbounded (cb : cirbuf_t) (data : Nat → Byte) (n : Int)
    (hcap : cb.size < 2 ^ 31) (hh : cb.head < cb.size) (ht : cb.tail < cb.size)
    (h0 : 0 ≤ n) (hn : n < 2 ^ 31) :
    cirbuf_offer cb data n = offer_unbounded cb data n := by
  unfold cirbuf_offer offer_unbounded
  rw [unusedspace_eq_unbounded cb hcap hh ht]
  have hsz : toULong n = n.toNat := by unfold toULong; omega
  rw [hsz]
  by_cases hrej : unusedspace_unbounded cb ≤ n
  · rw [if_pos hrej, if_pos hrej]
  · rw [if_neg hrej, if_neg hrej]
    cases hm : memcpy cb cb.tail data n.toNat with
    | none => rfl
    | some c0 =>
      obtain ⟨f1, -, f3⟩ := memcpy_fields cb cb.tail data n.toNat c0 hm
      have e1 : toUInt ((c0.tail + n.toNat : Nat) : Int) = c0.tail + n.toNat := by
        unfold toUInt; omega
      have e2 : (c0.tail : Int) + n = ((c0.tail + n.toNat : Nat) : Int) := by omega
      have e3 : toUInt (((c0.tail + n.toNat) % c0.size : Nat) : Int)
          = (c0.tail + n.toNat) % c0.size := by
        have hlt : (c0.tail + n.toNat) % c0.size < c0.size := Nat.mod_lt _ (by omega)
        unfold toUInt; omega
      simp only [e1, e2, e3, Int.toNat_ofNat, ← Int.natCast_mod, Nat.cast_le]

/-- C17.  For a capacity `0 < size ≤ 2 ^ 31 - 1`, a state with `head < size`
and `tail < size`, and an offer length `0 ≤ n ≤ 2 ^ 31 - 1`: `cirbuf_size`,
`cirbuf_usedspace`, `cirbuf_unusedspace` and `cirbuf_offer`, computed at the
declared C widths, give the results of the same computations in unbounded
integers; every conversion met on the way (the `unsigned int` differences of
the cursors, the `unsigned long` differences with `size`, the `int` results,
the `size_t` length of the copy, the `unsigned int` sum `tail + n` and its
remainder) leaves its value unchanged; and the offer is rejected exactly when
`n ≥ size - usedspace`. -/
theorem fixed_width_exact (cb : cirbuf_t) (data : Nat → Byte) (n : Int)
    (hpos : 0 < cb.size) (hcap : cb.size ≤ 2 ^ 31 - 1)
    (hh : cb.head < cb.size) (ht : cb.tail < cb.size)
    (h0 : 0 ≤ n) (hn : n ≤ 2 ^ 31 - 1) :
    cirbuf_size cb = size_unbounded cb ∧
    cirbuf_usedspace cb = usedspace_unbounded cb ∧
    cirbuf_unusedspace cb = unusedspace_unbounded cb ∧
    cirbuf_offer cb data n = offer_unbounded cb data n ∧
    (cb.head ≤ cb.tail →
      (toUInt ((cb.tail : Int) - cb.head) : Int) = (cb.tail : Int) - cb.head) ∧
    (¬ cb.head ≤ cb.tail →
      (toUInt ((cb.head : Int) - cb.tail) : Int) = (cb.head : Int) - cb.tail ∧
      (toULong ((cb.size : Int) - toUInt ((cb.head : Int) - cb.tail)) : Int)
        = (cb.size : Int) - ((cb.head : Int) - cb.tail)) ∧
    toInt (usedspace_unbounded cb) = usedspace_unbounded cb ∧
    (toULong (cirbuf_usedspace cb) : Int) = usedspace_unbounded cb ∧
    (toULong ((cb.size : Int) - toULong (cirbuf_usedspace cb)) : Int)
      = unusedspace_unbounded cb ∧
    toInt (unusedspace_unbounded cb) = unusedspace_unbounded cb ∧
    toInt (cb.size : Int) = cb.size ∧
    (toULong n : Int) = n ∧
    (toUInt ((cb.tail : Int) + n) : Int) = (cb.tail : Int) + n ∧
    (toUInt ((toUInt ((cb.tail : Int) + n) % cb.size : Nat) : Int) : Int)
      = ((cb.tail : Int) + n) % (cb.size : Int) ∧
    (cirbuf_unusedspace cb ≤ n ↔ (cb.size : Int) - usedspace_unbounded cb ≤ n) := by
  have hcap' : cb.size < 2 ^ 31 := by omega
  have hu := usedspace_eq_unbounded cb (le_of_lt hcap') hh ht
  have hun := unusedspace_eq_unbounded cb hcap' hh ht
  have hub : 0 ≤ usedspace_unbounded cb ∧ usedspace_unbounded cb < cb.size := by
    unfold usedspace_unbounded
    split_ifs <;> omega
  have hunb : unusedspace_unbounded cb = (cb.size : Int) - usedspace_unbounded cb := rfl
  have ht32 : toUInt ((cb.tail : Int) + n) = cb.tail + n.toNat := by
    unfold toUInt; omega
  have hmod : (cb.tail + n.toNat) % cb.size < cb.size := Nat.mod_lt _ hpos
  refine ⟨?_, hu, hun, offer_eq_unbounded cb data n hcap' hh ht h0 (by omega),
    ?_, ?_, ?_, ?_, ?_, ?_, ?_, ?_, ?_, ?_, ?_⟩
  · unfold cirbuf_size size_unbounded toInt; omega
  · intro h; unfold toUInt; omega
  · intro h
    have e : (toUInt ((cb.head : Int) - cb.tail) : Int) = (cb.head : Int) - cb.tail := by
      unfold toUInt; omega
    refine ⟨e, ?_⟩
    rw [e]; unfold toULong; omega
  · unfold toInt; omega
  · rw [hu]; unfold toULong; omega
  · have e : (toULong (cirbuf_usedspace cb) : Int) = usedspace_unbounded cb := by
      rw [hu]; unfold toULong; omega
    rw [e, hunb]; unfold toULong; omega
  · rw [hunb]; unfold toInt; omega
  · unfold toInt; omega
  · unfold toULong; omega
  · unfold toUInt; omega
  · rw [ht32]
    have e : (cb.tail : Int) + n = ((cb.tail + n.toNat : Nat) : Int) := by omega
    rw [e, ← Int.natCast_mod]
    unfold toUInt; omega
  · rw [hun, hunb]

/-- Witness for `fixed_width_exact`: capacity 8 with `head = 6`, `tail = 2`,
offer of three bytes. -/
theorem fixed_width_exact_witness :
    cirbuf_size ⟨8, 6, 2, fun i => 97 + i⟩ = size_unbounded ⟨8, 6, 2, fun i => 97 + i⟩ ∧
    cirbuf_usedspace ⟨8, 6, 2, fun i => 97 + i⟩
      = usedspace_unbounded ⟨8, 6, 2, fun i => 97 + i⟩ ∧
    cirbuf_unusedspace ⟨8, 6, 2, fun i => 97 + i⟩
      = unusedspace_unbounded ⟨8, 6, 2, fun i => 97 + i⟩ ∧
    cirbuf_offer ⟨8, 6, 2, fun i => 97 + i⟩ (fun i => 65 + i) 3
      = offer_unbounded ⟨8, 6, 2, fun i => 97 + i⟩ (fun i => 65 + i) 3 :=
  ⟨(fixed_width_exact ⟨8, 6, 2, fun i => 97 + i⟩ (fun i => 65 + i) 3 (by decide)
      (by decide) (by decide) (by decide) (by decide) (by decide)).1,
   (fixed_width_exact ⟨8, 6, 2, fun i => 97 + i⟩ (fun i => 65 + i) 3 (by decide)
      (by decide) (by decide) (by decide) (by decide) (by decide)).2.1,
   (fixed_width_exact ⟨8, 6, 2, fun i => 97 + i⟩ (fun i => 65 + i) 3 (by decide)
      (by decide) (by decide) (by decide) (by decide) (by decide)).2.2.1,
   (fixed_width_exact ⟨8, 6, 2, fun i => 97 + i⟩ (fun i => 65 + i) 3 (by decide)
      (by decide) (by decide) (by decide) (by decide) (by decide)).2.2.2.1⟩

/-! ## C15: the buffer as a queue of bytes -/

theorem mirror_mod (size v : Nat) (h : v < 2 * size) :
    window_offset size v = some (v % size) := by
  unfold window_offset
  by_cases h1 : v < size
  · rw [if_pos h1, Nat.mod_eq_of_lt h1]
  · rw [if_neg h1, if_pos h, mod_once v size (by omega) h]

theorem load_mod (cb : cirbuf_t) (v : Nat) (h : v < 2 * cb.size) :
    load cb v = some (cb.data (v % cb.size)) := by
  unfold load
  rw [mirror_mod cb.size v h]
  rfl

theorem store_data (cb c : cirbuf_t) (v : Nat) (b : Byte) (h : store cb v b = some c) :
    v < 2 * cb.size ∧ ∀ k, k ≠ v % cb.size → c.data k = cb.data k := by
  have hv : v < 2 * cb.size := by
    by_contra hcon
    unfold store window_offset at h
    rw [if_neg (by omega), if_neg hcon] at h
    cases h
  refine ⟨hv, ?_⟩
  unfold store at h
  rw [mirror_mod cb.size v hv] at h
  simp only [Option.some.injEq] at h
  intro k hk
  rw [← h]
  simp only
  rw [if_neg hk]

/-- A copy changes no byte of the file outside the span it writes. -/
theorem memcpy_frame (cb : cirbuf_t) (dst : Nat) (src : Nat → Byte) (n : Nat) :
    ∀ c, memcpy cb dst src n = some c →
      ∀ k, (∀ i, i < n → (dst + i) % cb.size ≠ k) → c.data k = cb.data k := by
  induction n with
  | zero => intro c h k _; cases h; rfl
  | succ n ih =>
    intro c h k hk
    simp only [memcpy] at h
    cases hm : memcpy cb dst src n with
    | none => rw [hm] at h; cases h
    | some c1 =>
      rw [hm] at h
      simp only [Option.some_bind] at h
      have hs := (memcpy_fields cb dst src n c1 hm).1
      obtain ⟨-, hd⟩ := store_data c1 c _ _ h
      rw [hd k (by rw [hs]; exact (hk n (by omega)).symm)]
      exact ih c1 hm k (fun i hi => hk i (by omega))

/-- After a copy of at most `size` bytes, the file holds the source bytes at
the offsets `(dst + i) mod size`. -/
theorem memcpy_data (cb : cirbuf_t) (dst : Nat) (src : Nat → Byte) (n : Nat)
    (c : cirbuf_t) (h : memcpy cb dst src n = some c) (hn : n ≤ cb.size)
    (hwin : dst + n ≤ 2 * cb.size) (i : Nat) (hi : i < n) :
    c.data ((dst + i) % cb.size) = src i := by
  have hl := memcpy_load cb dst src n c h hn i hi
  have hs := (memcpy_fields cb dst src n c h).1
  rw [load_mod c (dst + i) (by omega), hs] at hl
  simpa using hl

theorem contents_length (cb : cirbuf_t) :
    (contents cb).length = (cirbuf_usedspace cb).toNat := by
  simp [contents]

theorem mod_cases (a c : Nat) (h : a < 2 * c) :
    (a < c ∧ a % c = a) ∨ (c ≤ a ∧ a % c = a - c) := by
  by_cases hw : c ≤ a
  · exact Or.inr ⟨hw, mod_once a c hw h⟩
  · exact Or.inl ⟨by omega, Nat.mod_eq_of_lt (by omega)⟩

/-- On a state with cursors in range and a capacity of at most `2 ^ 31`, the
count returned by `cirbuf_usedspace` is the distance from `head` to `tail`
around the ring. -/
theorem used_nat (cb : cirbuf_t) (hcap : cb.size ≤ 2 ^ 31)
    (hh : cb.head < cb.size) (ht : cb.tail < cb.size) :
    cirbuf_usedspace cb = ((cirbuf_usedspace cb).toNat : Int) ∧
    (cirbuf_usedspace cb).toNat < cb.size ∧
    cb.tail = (cb.head + (cirbuf_usedspace cb).toNat) % cb.size := by
  have hu := usedspace_val cb hcap hh ht
  rw [hu]
  refine ⟨by split_ifs <;> omega, by split_ifs <;> omega, ?_⟩
  split_ifs with h
  · have e : cb.head + ((cb.tail : Int) - cb.head).toNat = cb.tail := by omega
    rw [e, Nat.mod_eq_of_lt ht]
  · have e : cb.head + ((cb.size : Int) - ((cb.head : Int) - cb.tail)).toNat
        = cb.tail + cb.size := by omega
    rw [e, Nat.add_mod_right, Nat.mod_eq_of_lt ht]

/-- The bytes read through the window from `head` are the bytes held. -/
theorem read_from_head (cb : cirbuf_t) (hcap : cb.size ≤ 2 ^ 31)
    (hh : cb.head < cb.size) (ht : cb.tail < cb.size) (n : Nat)
    (hn : (n : Int) ≤ cirbuf_usedspace cb) :
    read_from cb cb.head n = ((contents cb).take n).map some := by
  obtain ⟨h1, h2, -⟩ := used_nat cb hcap hh ht
  unfold read_from contents
  rw [← List.map_take, List.take_range, Nat.min_eq_left (by omega), List.map_map]
  apply List.map_congr_left
  intro i hi
  rw [List.mem_range] at hi
  rw [load_mod cb _ (by omega)]
  rfl

/-- An accepted offer appends the offered bytes to the bytes held. -/
theorem offer_contents (cb : cirbuf_t) (data : Nat → Byte) (n : Int)
    (hcap : cb.size ≤ 2 ^ 31) (hh : cb.head < cb.size) (ht : cb.tail < cb.size)
    (h0 : 0 ≤ n) (hlt : n < cirbuf_unusedspace cb) :
    ∃ c, cirbuf_offer cb data n = some (c, n) ∧
      c.size = cb.size ∧ c.head < c.size ∧ c.tail < c.size ∧
      contents c = contents cb ++ bytes_of data n.toNat := by
  obtain ⟨c0, hc0, hoff, hwin, hroom⟩ := offer_accept cb data n hcap hh ht h0 hlt
  obtain ⟨f1, f2, -⟩ := memcpy_fields cb cb.tail data n.toNat c0 hc0
  obtain ⟨u1, u2, u3⟩ := used_nat cb hcap hh ht
  obtain ⟨hT, hadv⟩ := usedspace_tail_advance cb n.toNat hcap hh ht (by omega)
  have hused : cirbuf_usedspace { c0 with tail := (cb.tail + n.toNat) % cb.size }
      = cirbuf_usedspace cb + n.toNat := by
    rw [usedspace_congr { c0 with tail := (cb.tail + n.toNat) % cb.size }
      { cb with tail := (cb.tail + n.toNat) % cb.size } f1 f2 rfl, hadv]
  have hlen : (cirbuf_usedspace cb + (n.toNat : Int)).toNat
      = (cirbuf_usedspace cb).toNat + n.toNat := by omega
  refine ⟨_, hoff, f1, by simpa [f1, f2] using hh, by simpa [f1] using hT, ?_⟩
  unfold contents bytes_of
  rw [hused, hlen, List.range_add, List.map_append, List.map_map]
  simp only [f1, f2]
  congr 1
  · apply List.map_congr_left
    intro i hi
    rw [List.mem_range] at hi
    apply memcpy_frame cb cb.tail data n.toNat c0 hc0
    intro j hj
    rcases mod_cases (cb.tail + j) cb.size (by omega) with ⟨a1, a2⟩ | ⟨a1, a2⟩ <;>
    rcases mod_cases (cb.head + i) cb.size (by omega) with ⟨b1, b2⟩ | ⟨b1, b2⟩ <;>
    rcases mod_cases (cb.head + (cirbuf_usedspace cb).toNat) cb.size (by omega)
      with ⟨d1, d2⟩ | ⟨d1, d2⟩ <;>
    rw [a2, b2] <;> rw [d2] at u3 <;> omega
  · apply List.map_congr_left
    intro j hj
    rw [List.mem_range] at hj
    have hd := memcpy_data cb cb.tail data n.toNat c0 hc0 (by omega) (by omega) j hj
    have e : (cb.head + ((cirbuf_usedspace cb).toNat + j)) % cb.size
        = (cb.tail + j) % cb.size := by
      rw [u3, Nat.mod_add_mod, Nat.add_assoc]
    simp only [Function.comp, e]
    exact hd

/-- A poll within the used space drops the polled bytes from the front of the
bytes held. -/
theorem poll_contents (cb : cirbuf_t) (n : Nat) (hcap : cb.size ≤ 2 ^ 31)
    (hh : cb.head < cb.size) (ht : cb.tail < cb.size) (hne : cb.head ≠ cb.tail)
    (hn : (n : Int) ≤ cirbuf_usedspace cb) :
    (cirbuf_poll cb n).2 = some cb.head ∧
    (cirbuf_poll cb n).1.size = cb.size ∧
    (cirbuf_poll cb n).1.head < cb.size ∧ (cirbuf_poll cb n).1.tail < cb.size ∧
    read_from (cirbuf_poll cb n).1 cb.head n = ((contents cb).take n).map some ∧
    contents (cirbuf_poll cb n).1 = (contents cb).drop n := by
  obtain ⟨hp, hwin, hlt, hused⟩ := poll_within_used cb n hcap hh ht hne hn
  obtain ⟨u1, u2, -⟩ := used_nat cb hcap hh ht
  have hrd := read_from_head cb hcap hh ht n hn
  have hlen : (cirbuf_usedspace cb - (n : Int)).toNat = (cirbuf_usedspace cb).toNat - n := by
    omega
  have hsplit : List.range (cirbuf_usedspace cb).toNat
      = List.range n ++ (List.range ((cirbuf_usedspace cb).toNat - n)).map (n + ·) := by
    rw [← List.range_add]
    congr 1
    omega
  rw [hp]
  refine ⟨rfl, rfl, hlt, ht, hrd, ?_⟩
  unfold contents
  rw [hused, hlen]
  simp only
  rw [← List.map_drop]
  conv_rhs => rw [hsplit, List.drop_left' (List.length_range n), List.map_map]
  apply List.map_congr_left
  intro i _
  simp only [Function.comp]
  rw [Nat.mod_add_mod, Nat.add_assoc]

theorem bytes_of_getD (x : List Byte) : bytes_of (fun i => x.getD i 0) x.length = x := by
  unfold bytes_of
  apply List.ext_getElem
  · simp
  · intro i h1 h2
    simp [List.getD_eq_getElem?_getD, h2]

/-- One request served by the buffer and by the queue of capacity `size - 1`
keeps the two in step. -/
theorem buffer_call_refines (cb : cirbuf_t) (r : Request) (hcap : cb.size < 2 ^ 31)
    (hh : cb.head < cb.size) (ht : cb.tail < cb.size)
    (hb : polls_in_bounds cb.size (contents cb) [r] = true) :
    ∃ c, buffer_call cb r = some c ∧ c.size = cb.size ∧
      c.head < c.size ∧ c.tail < c.size ∧
      contents c = queue_call cb.size (contents cb) r := by
  obtain ⟨u1, u2, -⟩ := used_nat cb (le_of_lt hcap) hh ht
  have hun := unusedspace_int_range cb hcap hh ht
  cases r with
  | offer x =>
    by_cases hfit : (contents cb).length + x.length < cb.size
    · rw [contents_length] at hfit
      obtain ⟨c, hoff, f1, f2, f3, hc⟩ := offer_contents cb (fun i => x.getD i 0) x.length
        (le_of_lt hcap) hh ht (by omega) (by omega)
      refine ⟨c, by simp only [buffer_call, hoff, Option.map_some'], f1, f2, f3, ?_⟩
      rw [hc, Int.toNat_ofNat, bytes_of_getD]
      simp only [queue_call, contents_length]
      rw [if_pos hfit]
    · rw [contents_length] at hfit
      have hoff := offer_reject cb (fun i => x.getD i 0) x.length (by omega)
      refine ⟨cb, by simp only [buffer_call, hoff, Option.map_some'], rfl, hh, ht, ?_⟩
      simp only [queue_call, contents_length]
      rw [if_neg hfit]
  | poll n =>
    simp only [polls_in_bounds, Bool.and_true, decide_eq_true_eq, contents_length] at hb
    by_cases he : cb.head = cb.tail
    · have h0 : n = 0 := by
        have := usedspace_empty cb he
        omega
      subst h0
      refine ⟨cb, by simp [buffer_call, poll_of_empty cb 0 he], rfl, hh, ht, ?_⟩
      simp [queue_call]
    · obtain ⟨-, p2, p3, p4, -, p6⟩ :=
        poll_contents cb n (le_of_lt hcap) hh ht he (by omega)
      exact ⟨_, rfl, p2, by rw [p2]; exact p3, by rw [p2]; exact p4, p6⟩

/-- A sequence of requests served by the buffer and by the queue of capacity
`size - 1` ends with the same bytes held. -/
theorem buffer_run_refines (rs : List Request) : ∀ cb : cirbuf_t, cb.size < 2 ^ 31 →
    cb.head < cb.size → cb.tail < cb.size →
    polls_in_bounds cb.size (contents cb) rs = true →
    ∃ c, buffer_run cb rs = some c ∧ c.size = cb.size ∧
      c.head < c.size ∧ c.tail < c.size ∧
      contents c = queue_run cb.size (contents cb) rs := by
  induction rs with
  | nil => intro cb _ hh ht _; exact ⟨cb, rfl, rfl, hh, ht, rfl⟩
  | cons r rs ih =>
    intro cb hcap hh ht hb
    have hb1 : polls_in_bounds cb.size (contents cb) [r] = true
        ∧ polls_in_bounds cb.size (queue_call cb.size (contents cb) r) rs = true := by
      cases r with
      | offer x => exact ⟨rfl, by simpa [polls_in_bounds] using hb⟩
      | poll n =>
        simp only [polls_in_bounds, Bool.and_eq_true, decide_eq_true_eq] at hb ⊢
        exact ⟨⟨hb.1, trivial⟩, hb.2⟩
    obtain ⟨c1, s1, f1, g1, g2, e1⟩ := buffer_call_refines cb r hcap hh ht hb1.1
    obtain ⟨c, s2, f2, k1, k2, e2⟩ := ih c1 (by omega) g1 g2 (by rw [f1, e1]; exact hb1.2)
    refine ⟨c, ?_, f2.trans f1, k1, k2, ?_⟩
    · simp only [buffer_run, s1, Option.some_bind, s2]
    · rw [e2, f1, e1]
      rfl

/-- C15 (amended).  With `contents` the list of the `cirbuf_usedspace` bytes
at the window offsets `head`, `head + 1`, ... (offset `k` denoting the byte
`k mod size` of the storage), on every state with `head < size`,
`tail < size` and `size < 2 ^ 31`: an accepted offer of `n` bytes of `data`
gives `contents = old contents ++ data[0 .. n)`; a poll of `n ≤
cirbuf_usedspace` bytes on a non-empty buffer returns a reference whose first
`n` bytes are the first `n` elements of the old contents, and gives the old
contents without them; the reference returned by `cirbuf_peek` reads exactly
the contents; and the contents never exceed `size - 1` bytes.  Consequently a
sequence of offers and in-bounds polls leaves the buffer with the contents of
a byte queue that holds at most `size - 1` bytes and serves the same
requests. -/
theorem fifo_refinement (cb : cirbuf_t) (hcap : cb.size < 2 ^ 31)
    (hh : cb.head < cb.size) (ht : cb.tail < cb.size) :
    (∀ (data : Nat → Byte) (n : Int), 0 ≤ n → n < cirbuf_unusedspace cb →
      ∃ c, cirbuf_offer cb data n = some (c, n) ∧
        contents c = contents cb ++ bytes_of data n.toNat) ∧
    (∀ n : Nat, cb.head ≠ cb.tail → (n : Int) ≤ cirbuf_usedspace cb →
      ∃ e, (cirbuf_poll cb n).2 = some e ∧
        read_from (cirbuf_poll cb n).1 e n = ((contents cb).take n).map some ∧
        contents (cirbuf_poll cb n).1 = (contents cb).drop n) ∧
    (∀ e, (cirbuf_peek cb).2 = some e →
      read_from cb e (contents cb).length = (contents cb).map some) ∧
    (contents cb).length ≤ cb.size - 1 ∧
    (∀ rs : List Request, polls_in_bounds cb.size (contents cb) rs = true →
      ∃ c, buffer_run cb rs = some c ∧
        contents c = queue_run cb.size (contents cb) rs ∧
        (contents c).length ≤ cb.size - 1) := by
  obtain ⟨u1, u2, -⟩ := used_nat cb (le_of_lt hcap) hh ht
  refine ⟨?_, ?_, ?_, ?_, ?_⟩
  · intro data n h0 hlt
    obtain ⟨c, hoff, -, -, -, hc⟩ := offer_contents cb data n (le_of_lt hcap) hh ht h0 hlt
    exact ⟨c, hoff, hc⟩
  · intro n hne hn
    obtain ⟨p1, -, -, -, p5, p6⟩ := poll_contents cb n (le_of_lt hcap) hh ht hne hn
    exact ⟨cb.head, p1, p5, p6⟩
  · intro e he
    rw [peek_ref cb e he, read_from_head cb (le_of_lt hcap) hh ht _
      (by rw [contents_length]; omega), List.take_length]
  · rw [contents_length]; omega
  · intro rs hb
    obtain ⟨c, hrun, f1, g1, g2, hc⟩ := buffer_run_refines rs cb hcap hh ht hb
    obtain ⟨-, v2, -⟩ := used_nat c (by omega) g1 g2
    refine ⟨c, hrun, hc, ?_⟩
    rw [contents_length]
    omega

/-- Witness for `fifo_refinement`: capacity 8 with `head = 6`, `tail = 2`
(four bytes held across the end of the storage); an offer of three bytes, a
poll of five, an offer of eight bytes (rejected) and a poll of two. -/
theorem fifo_refinement_witness :
    ∃ c, buffer_run ⟨8, 6, 2, fun i => 97 + i⟩
          [Request.offer [1, 2, 3], Request.poll 5, Request.offer [4, 5, 6, 7, 8, 9, 10, 11],
           Request.poll 2] = some c ∧
      contents c = queue_run (⟨8, 6, 2, fun i => 97 + i⟩ : cirbuf_t).size
          (contents ⟨8, 6, 2, fun i => 97 + i⟩)
          [Request.offer [1, 2, 3], Request.poll 5, Request.offer [4, 5, 6, 7, 8, 9, 10, 11],
           Request.poll 2] ∧
      (contents c).length ≤ (⟨8, 6, 2, fun i => 97 + i⟩ : cirbuf_t).size - 1 :=
  (fifo_refinement ⟨8, 6, 2, fun i => 97 + i⟩ (by decide) (by decide) (by decide)).2.2.2.2
    [Request.offer [1, 2, 3], Request.poll 5, Request.offer [4, 5, 6, 7, 8, 9, 10, 11],
     Request.poll 2] (by decide)

/-- C15 as stated fails for a capacity above `2 ^ 31`.  With
`size = 2 ^ 32 + 4096` and `head = tail = 2 ^ 32 - 1` (no byte held), the
offer of 2 bytes is accepted and the 32-bit tail wraps to `1`, after which
`cirbuf_usedspace` returns `4098`: the contents are 4098 bytes long, not the
2 bytes offered. -/
theorem fifo_refinement_fails_above_int_range :
    ¬ ∀ (cb : cirbuf_t) (data : Nat → Byte) (n : Int),
      cb.head < cb.size → cb.tail < cb.size → 0 ≤ n → n < cirbuf_unusedspace cb →
      ∃ c, cirbuf_offer cb data n = some (c, n) ∧
        contents c = contents cb ++ bytes_of data n.toNat := by
  intro h
  obtain ⟨c, hoff, hc⟩ :=
    h ⟨4294971392, 4294967295, 4294967295, fun _ => 0⟩ (fun _ => 7) 2
      (by decide) (by decide) (by decide) (by decide)
  have e : (cirbuf_offer ⟨4294971392, 4294967295, 4294967295, fun _ => 0⟩
      (fun _ => 7) 2).map (fun r => cirbuf_usedspace r.1) = some 4098 := by decide
  rw [hoff] at e
  simp only [Option.map_some', Option.some.injEq] at e
  have hl := congrArg List.length hc
  rw [List.length_append, contents_length, contents_length, e,
    usedspace_empty _ rfl] at hl
  revert hl
  simp [bytes_of]

end Cirbuf
